import Mathlib

/-!
# BlogSmith AI — verification of the generation-and-assembly pipeline

Shallow embedding of the core pipeline of the BlogSmith AI repository:
hashtag normalization (`generate-social-media-post.ts`), the text-stage
failure diagnostics and SEO rewrite phase (`content-generator.tsx`,
`generate-blog-post.ts` variants), the per-placeholder image-synthesis
loop with fallbacks, the placeholder-resolution renderer, and the PDF
page-chunking loop.  External LLM / image-synthesis calls are modelled
as oracle parameters (`Except Unit (Option String)` and friends): the
embedding is parametric in their outcomes, exactly as the TypeScript
code is parametric in what the awaited services return.
-/

set_option maxRecDepth 100000

namespace BlogSmith

/-! ## Hashtag normalization (`src/ai/flows/generate-social-media-post.ts`, flow body)

The flow receives `output.hashtags`, which at runtime may be a list of
strings, a raw string, absent, or some other (unparseable) value; it
normalizes it to a list of strings.
-/

/-- Separator class of the split pattern used on a raw hashtag string:
comma, hash sign, or whitespace (the character class of the regex, applied
to maximal runs). -/
def isHashtagSep (c : Char) : Bool := c = ',' || c = '#' || c.isWhitespace

/-- JavaScript `String.split` on a one-or-more-separators regex: the string
is cut at every maximal run of separator characters; boundary runs leave
empty pieces, and the empty string yields one empty piece.  A separator
whose successor is also a separator extends the same run, so it adds no
new cut. -/
def splitSepRuns : List Char → List (List Char)
  | [] => [[]]
  | c :: cs =>
    if isHashtagSep c then
      match cs with
      | d :: _ => if isHashtagSep d then splitSepRuns cs else [] :: splitSepRuns cs
      | [] => [] :: splitSepRuns cs
    else
      match splitSepRuns cs with
      | [] => [[c]]
      | p :: ps => (c :: p) :: ps

/-- `h.replace(/^#/, '')`: drop one leading hash sign if present. -/
def stripLeadingHash : List Char → List Char
  | '#' :: cs => cs
  | cs => cs

/-- The raw-string branch: `split(/[,#\s]+/).filter(h => h.length > 0)`
followed by prefixing each piece with a hash sign (after stripping one
leading hash). -/
def normalizeFromString (s : String) : List String :=
  ((splitSepRuns s.data).filter (fun p => p.length ≠ 0)).map
    (fun p => String.mk ('#' :: stripLeadingHash p))

/-- `h.startsWith('#')`: the first character is a hash sign. -/
def jsStartsWithHash (h : String) : Bool :=
  match h.data with
  | '#' :: _ => true
  | _ => false

/-- The array branch: `hashtags.map(h => h.startsWith('#') ? h : '#' + h)`. -/
def normalizeFromList (l : List String) : List String :=
  l.map (fun h => if jsStartsWithHash h then h else String.mk ('#' :: h.data))

/-- Runtime shapes the `hashtags` field of the model's output can take,
seen through the JavaScript truthiness / `Array.isArray` tests the flow
performs.  `otherTruthy` stands for any truthy value that is neither a
string nor an array. -/
inductive RawHashtags
  | absent
  | str (s : String)
  | list (l : List String)
  | otherTruthy
deriving DecidableEq

/-- The normalization performed by `generateSocialMediaPostFlow`:
a truthy non-array string is split and re-prefixed; an array has `#`
prepended to elements lacking it; anything else becomes the empty list
(the final `hashtags || []`, where the empty string is falsy). -/
def normalizeHashtags : RawHashtags → List String
  | .absent => []
  | .str s => if s.data.isEmpty then [] else normalizeFromString s
  | .list l => normalizeFromList l
  | .otherTruthy => []

theorem mem_normalizeFromString_head {s : String} {t : String}
    (ht : t ∈ normalizeFromString s) : t.data.head? = some '#' := by
  rcases List.mem_map.mp ht with ⟨p, _, rfl⟩
  rfl

theorem mem_normalizeFromList_head {l : List String} {t : String}
    (ht : t ∈ normalizeFromList l) : t.data.head? = some '#' := by
  rcases List.mem_map.mp ht with ⟨h, _, rfl⟩
  by_cases hh : jsStartsWithHash h = true
  · simp only [hh, if_true]
    unfold jsStartsWithHash at hh
    match hd : h.data with
    | '#' :: _ => simp [hd]
    | [] => rw [hd] at hh; simp at hh
    | c :: cs =>
      rw [hd] at hh
      by_cases hc : c = '#'
      · simp [hd, hc]
      · simp [hc] at hh
  · simp only [hh, if_false]
    rfl

/-- C9: every successful `generateSocialMediaPost` result carries a
hashtags list in which each element starts with `'#'`; a raw string is
split into per-tag entries each prefixed with `'#'`, a list gets `'#'`
prepended where missing, and an absent or unparseable value becomes the
empty list — the field is never absent. -/
theorem social_hashtags_normalized :
    (∀ raw : RawHashtags, ∀ t ∈ normalizeHashtags raw, t.data.head? = some '#')
      ∧ normalizeHashtags .absent = [] ∧ normalizeHashtags .otherTruthy = [] := by
  refine ⟨?_, rfl, rfl⟩
  intro raw t ht
  cases raw with
  | absent => simp [normalizeHashtags] at ht
  | otherTruthy => simp [normalizeHashtags] at ht
  | str s =>
    unfold normalizeHashtags at ht
    by_cases hs : s.data.isEmpty
    · simp [hs] at ht
    · simp only [hs, if_false] at ht
      exact mem_normalizeFromString_head ht
  | list l =>
    unfold normalizeHashtags at ht
    exact mem_normalizeFromList_head ht

/-- Witness for C9 at a concrete input: the raw string "ai, #ml" normalizes
to tags starting with `'#'`. -/
theorem social_hashtags_normalized_witness :
    ("#ai" : String).data.head? = some '#' :=
  social_hashtags_normalized.1 (.str "ai, #ml") "#ai" (by decide)

/-! ## Text-stage failure diagnostics (`content-generator.tsx`, `onBlogSubmit`;
same cascade as `generateBlogPostFlow` in the blog-post flow)

The structured text output carries a `title` and a `content` string; the
model may also return nothing at all.  JavaScript falsiness on a string is
emptiness. -/

structure BlogTextOut where
  title : String
  content : String
deriving DecidableEq

def msgNoOutput : String := "The AI model returned no output."

def msgBothMissing : String := "The AI model returned neither title nor content."

def msgTitleMissing : String := "The AI model did not return a title."

def msgContentMissing : String := "The AI model did not return content."

/-- The fixed tail appended to every text-stage diagnostic. -/
def diagSuffix : String :=
  " This might be due to the complexity of the request, an internal issue with the AI, or safety filters blocking the content. Please try simplifying your keywords or topic, ensure it complies with content policies, or try again later."

/-- The guarded cascade of `onBlogSubmit`: when the result is absent or a
required field is empty, throw with the case-specific diagnostic plus the
fixed suffix; otherwise pass the result through.  (The declared default
diagnostic is unreachable: the outer guard implies one cascade branch
fires.) -/
def onBlogSubmitCheck (r : Option BlogTextOut) : Except String BlogTextOut :=
  match r with
  | none => .error (msgNoOutput ++ diagSuffix)
  | some t =>
    if t.title = "" ∨ t.content = "" then
      .error
        ((if t.title = "" ∧ t.content = "" then msgBothMissing
          else if t.title = "" then msgTitleMissing
          else msgContentMissing) ++ diagSuffix)
    else .ok t

def listStartsWith : List Char → List Char → Bool
  | _, [] => true
  | [], _ :: _ => false
  | c :: cs, p :: ps => c = p && listStartsWith cs ps

/-- JavaScript `String.includes`: some suffix of the receiver starts with
the pattern. -/
def containsSub (pat : List Char) : List Char → Bool
  | [] => listStartsWith [] pat
  | c :: cs => listStartsWith (c :: cs) pat || containsSub pat cs

def jsIncludes (s pat : String) : Bool := containsSub pat.data s.data

/-- The `catch` clause of `onBlogSubmit`: an empty message falls back to the
generic text, a message mentioning "blocked" or "safety settings" is
replaced by the safety notice, and any other message is surfaced verbatim
as the toast description. -/
def surfacedBlogError (msg : String) : String :=
  if msg = "" then "Failed to generate blog post. Please try again."
  else if jsIncludes msg "blocked" || jsIncludes msg "safety settings" then
    "Content generation was blocked due to safety settings. Please revise your input or try a different topic."
  else msg

/-! ## SEO rewrite phase (`content-generator.tsx`, `onBlogSubmit` /
`onSocialMediaSubmit`)

`optimizeForSeo` is an awaited external call; its outcome is an oracle.
`seoInvoked` is the guard `data.seoKeywords && data.seoKeywords.trim() !== ''`
and is the exact condition under which the oracle is consulted. -/

/-- JavaScript `String.trim`: drop whitespace from both ends. -/
def jsTrim (s : String) : String :=
  String.mk (((s.data.dropWhile Char.isWhitespace).reverse.dropWhile Char.isWhitespace).reverse)

/-- The guard of the SEO block: the optional keyword string is present,
truthy (non-empty), and non-empty after trimming. -/
def seoInvoked (kw : Option String) : Bool :=
  match kw with
  | none => false
  | some s => !(s = "") && !(jsTrim s = "")

/-- The SEO block: when the guard holds, consult the rewrite oracle —
success replaces the content, a thrown error is caught locally leaving the
content untouched and raising the non-fatal warning toast (second
component).  When the guard fails the oracle is never consulted. -/
def seoPhase (content : String) (kw : Option String) (oracle : Except Unit String) :
    String × Bool :=
  if seoInvoked kw then
    match oracle with
    | .ok optimized => (optimized, false)
    | .error _ => (content, true)
  else (content, false)

/-- `onBlogSubmit` end to end: the four-case check, then the SEO phase;
a thrown diagnostic reaches the caller through the catch clause as the
surfaced toast message. -/
def onBlogSubmit (r : Option BlogTextOut) (kw : Option String)
    (oracle : Except Unit String) : Except String (BlogTextOut × Bool) :=
  match onBlogSubmitCheck r with
  | .error m => .error (surfacedBlogError m)
  | .ok t =>
    let p := seoPhase t.content kw oracle
    .ok ({ t with content := p.1 }, p.2)

/-- The SEO phase of `onSocialMediaSubmit`, identical guard and recovery,
applied to the generated post content. -/
def onSocialMediaSubmitSeo (postContent : String) (kw : Option String)
    (oracle : Except Unit String) : String × Bool :=
  seoPhase postContent kw oracle

/-- C4: a text stage returning nothing usable fails fatally with a
diagnostic distinguishing the four cases — no output, both fields missing,
title missing only, content missing only — the four messages are pairwise
distinct, a usable result passes, and the thrown message is surfaced to
the caller unchanged (the catch clause does not rewrite it). -/
theorem text_stage_failure_diagnostics :
    onBlogSubmitCheck none = .error (msgNoOutput ++ diagSuffix)
    ∧ (∀ t : BlogTextOut, t.title = "" → t.content = "" →
        onBlogSubmitCheck (some t) = .error (msgBothMissing ++ diagSuffix))
    ∧ (∀ t : BlogTextOut, t.title = "" → t.content ≠ "" →
        onBlogSubmitCheck (some t) = .error (msgTitleMissing ++ diagSuffix))
    ∧ (∀ t : BlogTextOut, t.title ≠ "" → t.content = "" →
        onBlogSubmitCheck (some t) = .error (msgContentMissing ++ diagSuffix))
    ∧ (∀ t : BlogTextOut, t.title ≠ "" → t.content ≠ "" →
        onBlogSubmitCheck (some t) = .ok t)
    ∧ List.Pairwise (· ≠ ·)
        [msgNoOutput, msgBothMissing, msgTitleMissing, msgContentMissing]
    ∧ (∀ m ∈ [msgNoOutput, msgBothMissing, msgTitleMissing, msgContentMissing],
        surfacedBlogError (m ++ diagSuffix) = m ++ diagSuffix)
    ∧ (∀ kw oracle, onBlogSubmit none kw oracle = .error (msgNoOutput ++ diagSuffix)) := by
  refine ⟨rfl, ?_, ?_, ?_, ?_, by decide, by decide, ?_⟩
  · intro t h1 h2
    simp [onBlogSubmitCheck, h1, h2]
  · intro t h1 h2
    simp [onBlogSubmitCheck, h1, h2]
  · intro t h1 h2
    simp [onBlogSubmitCheck, h1, h2]
  · intro t h1 h2
    simp [onBlogSubmitCheck, h1, h2]
  · intro kw oracle
    have hsurf :
        surfacedBlogError (msgNoOutput ++ diagSuffix) = msgNoOutput ++ diagSuffix := by
      decide
    simp [onBlogSubmit, onBlogSubmitCheck, hsurf]

/-- Witness for C4 at a concrete input: a result carrying content but no
title yields the title-missing diagnostic. -/
theorem text_stage_failure_diagnostics_witness :
    onBlogSubmitCheck (some ⟨"", "Body text."⟩) = .error (msgTitleMissing ++ diagSuffix) :=
  text_stage_failure_diagnostics.2.2.1 ⟨"", "Body text."⟩ rfl (by decide)

/-- C7: when the SEO rewrite oracle throws during `onBlogSubmit`, the
delivered content equals the pre-rewrite content unchanged, the overall
generation still succeeds (an `ok` result, not an error), and the failure
is reported as the non-fatal warning flag. -/
theorem seo_failure_nonfatal :
    ∀ (t : BlogTextOut) (kw : Option String),
      t.title ≠ "" → t.content ≠ "" → seoInvoked kw = true →
      onBlogSubmit (some t) kw (.error ()) = .ok (t, true) := by
  intro t kw h1 h2 hkw
  simp [onBlogSubmit, onBlogSubmitCheck, h1, h2, seoPhase, hkw]

/-- Witness for C7 at a concrete input. -/
theorem seo_failure_nonfatal_witness :
    onBlogSubmit (some ⟨"T", "Body."⟩) (some "seo, words") (.error ()) =
      .ok (⟨"T", "Body."⟩, true) :=
  seo_failure_nonfatal ⟨"T", "Body."⟩ (some "seo, words") (by decide) (by decide)
    (by decide)

/-- C8: the SEO rewrite is invoked if and only if the supplied keyword
string is non-empty after trimming; for an absent, empty, or
whitespace-only keyword field no rewrite call is made (the phase is
independent of the oracle) and the content passes through unmodified —
in both the blog and the social pipelines. -/
theorem seo_invoked_iff_keywords :
    ∀ (content : String) (kw : Option String),
      (seoInvoked kw = true ↔ ∃ s, kw = some s ∧ jsTrim s ≠ "")
      ∧ (seoInvoked kw = false →
          ∀ oracle, seoPhase content kw oracle = (content, false)
            ∧ onSocialMediaSubmitSeo content kw oracle = (content, false)) := by
  intro content kw
  constructor
  · constructor
    · intro h
      match kw with
      | none => simp [seoInvoked] at h
      | some s =>
        refine ⟨s, rfl, ?_⟩
        simp only [seoInvoked, Bool.and_eq_true, Bool.not_eq_true'] at h
        intro hc
        simp [hc] at h
    · rintro ⟨s, rfl, hs⟩
      have hs0 : s ≠ "" := by
        intro h0
        apply hs
        rw [h0]
        rfl
      simp [seoInvoked, hs, hs0]
  · intro h oracle
    constructor
    · simp [seoPhase, h]
    · simp [onSocialMediaSubmitSeo, seoPhase, h]

/-- Witness for C8 at a concrete input: a whitespace-only keyword field
leaves the content untouched with no warning. -/
theorem seo_invoked_iff_keywords_witness :
    seoPhase "Plain content." (some "   ") (.ok "rewritten") = ("Plain content.", false) :=
  ((seo_invoked_iff_keywords "Plain content." (some "   ")).2 (by decide)
    (.ok "rewritten")).1

/-! ## Per-placeholder image synthesis (`generateBlogPostFlow` variants)

The repository carries several variants of `generate-blog-post.ts`.  The
claims cite three loop bodies: the one that falls back to the generic
`placehold.co` reference on every failure, the one that falls back to a
`picsum.photos` reference seeded by the slot index, and the one that
pushes nothing on failure.  The image-prompt call and the synthesis call
are awaited externals, modelled as per-index oracles: `.error ()` is a
thrown exception, `.ok none` a response lacking the relevant field. -/

structure ImageOracles where
  promptResult : ℕ → Option String → Except Unit (Option String)
  mediaResult : ℕ → String → Except Unit (Option String)

/-- The placeholder token for a 1-based index: `[IMAGE_PLACEHOLDER_<n>]`. -/
def placeholderToken (n : ℕ) : String :=
  "[IMAGE_PLACEHOLDER_" ++ Nat.repr n ++ "]"

/-- JavaScript `String.indexOf`: position of the first occurrence of the
pattern, `none` when absent. -/
def firstMatchPos (pat : List Char) : List Char → Option ℕ
  | [] => if listStartsWith [] pat then some 0 else none
  | c :: cs =>
    if listStartsWith (c :: cs) pat then some 0
    else (firstMatchPos pat cs).map (· + 1)

/-- The context window around a placeholder: up to `margin` characters on
each side of the token's first occurrence; absent when the token does not
occur in the content. -/
def imageContext (content tok : String) (margin : ℕ) : Option String :=
  match firstMatchPos tok.data content.data with
  | none => none
  | some idx =>
    let s := idx - margin
    let e := min content.data.length (idx + tok.data.length + margin)
    some (String.mk ((content.data.drop s).take (e - s)))

/-- The shared generic fallback of the `placehold.co` variant. -/
def genericFallback : String := "https://placehold.co/600x400.png"

/-- The caught-exception fallback of the `picsum.photos` variant, seeded by
the 1-based slot index. -/
def picsumErrorFallback (n : ℕ) : String :=
  "https://picsum.photos/seed/error" ++ Nat.repr n ++ "/600/400"

/-- The empty-result fallback of the `picsum.photos` variant, seeded by the
1-based slot index. -/
def picsumPlaceholderFallback (n : ℕ) : String :=
  "https://picsum.photos/seed/placeholder" ++ Nat.repr n ++ "/600/400"

/-- One iteration of the `placehold.co` variant's loop (0-based `i`):
derive the context window, request an image prompt, synthesize; every
failure mode pushes the same generic fallback. -/
def slotV1 (orc : ImageOracles) (content : String) (i : ℕ) : String :=
  let ctx := imageContext content (placeholderToken (i + 1)) 150
  match orc.promptResult i ctx with
  | .error _ => genericFallback
  | .ok none => genericFallback
  | .ok (some p) =>
    match orc.mediaResult i p with
    | .error _ => genericFallback
    | .ok none => genericFallback
    | .ok (some url) => url

/-- One iteration of the `picsum.photos` variant's loop: a thrown error
pushes the error-seeded fallback, an empty prompt or missing media URL the
placeholder-seeded fallback. -/
def slotV2 (orc : ImageOracles) (content : String) (i : ℕ) : String :=
  let ctx := imageContext content (placeholderToken (i + 1)) 100
  match orc.promptResult i ctx with
  | .error _ => picsumErrorFallback (i + 1)
  | .ok none => picsumPlaceholderFallback (i + 1)
  | .ok (some p) =>
    match orc.mediaResult i p with
    | .error _ => picsumErrorFallback (i + 1)
    | .ok none => picsumPlaceholderFallback (i + 1)
    | .ok (some url) => url

/-- One iteration of the no-fallback variant's loop: only a successful
synthesis with a media URL pushes anything. -/
def slotV3 (orc : ImageOracles) (i : ℕ) : Option String :=
  match orc.promptResult i none with
  | .error _ => none
  | .ok none => none
  | .ok (some p) =>
    match orc.mediaResult i p with
    | .error _ => none
    | .ok none => none
    | .ok (some url) => none.getD (some url)

/-- The `imageUrls` accumulated by the `placehold.co` variant: guarded by
`numPictures > 0 && content` (truthiness = non-emptiness), one push per
index. -/
def imageUrlsV1 (orc : ImageOracles) (n : ℕ) (content : String) : List String :=
  if 0 < n ∧ content ≠ "" then (List.range n).map (slotV1 orc content) else []

/-- The `imageUrls` accumulated by the `picsum.photos` variant. -/
def imageUrlsV2 (orc : ImageOracles) (n : ℕ) (content : String) : List String :=
  if 0 < n ∧ content ≠ "" then (List.range n).map (slotV2 orc content) else []

/-- The `imageUrls` accumulated by the no-fallback variant: failing
indices push nothing, so their slots are dropped. -/
def imageUrlsV3 (orc : ImageOracles) (n : ℕ) : List String :=
  if 0 < n then (List.range n).filterMap (slotV3 orc) else []

structure BlogPostOut where
  title : String
  content : String
  imageUrls : Option (List String)
  thumbnailUrl : Option String
deriving DecidableEq

/-- The full `placehold.co`-variant flow: the four-case text-stage check
(message prefixed `Failed to generate blog post: `), the image loop, then
`thumbnailUrl` from the first accumulated URL (with a wide placeholder
when pictures were requested but none accumulated) and `imageUrls`
made absent when empty. -/
def generateBlogPostFlowV1 (orc : ImageOracles) (textOut : Option BlogTextOut)
    (n : ℕ) : Except String BlogPostOut :=
  match textOut with
  | none => .error ("Failed to generate blog post: " ++ msgNoOutput ++ diagSuffix)
  | some t =>
    if t.title = "" ∨ t.content = "" then
      .error ("Failed to generate blog post: "
        ++ (if t.title = "" ∧ t.content = "" then msgBothMissing
            else if t.title = "" then msgTitleMissing
            else msgContentMissing) ++ diagSuffix)
    else
      let urls := imageUrlsV1 orc n t.content
      let thumb : Option String :=
        match urls with
        | u :: _ => some u
        | [] => if 0 < n then some "https://placehold.co/800x400.png" else none
      .ok { title := t.title, content := t.content,
            imageUrls := match urls with | [] => none | _ => some urls,
            thumbnailUrl := thumb }

/-- Oracles under which every image-prompt call throws. -/
def allFailOracles : ImageOracles :=
  ⟨fun _ _ => .error (), fun _ _ => .error ()⟩

theorem imageUrlsV1_length (orc : ImageOracles) (n : ℕ) {content : String}
    (h : content ≠ "") : (imageUrlsV1 orc n content).length = n := by
  unfold imageUrlsV1
  by_cases hn : 0 < n
  · simp [hn, h]
  · have hn0 : n = 0 := by omega
    simp [hn0]

/-- C1 counterexample: in the no-fallback variant cited by the claim, a
request for one picture whose synthesis fails returns an empty
`imageUrls` — the slot is dropped, so the list does not have exactly
`N = 1` entries. -/
theorem blog_image_slots_counterexample :
    imageUrlsV3 allFailOracles 1 = [] ∧ (imageUrlsV3 allFailOracles 1).length ≠ 1 := by
  decide

/-- C1 amended: in the fallback variant every index contributes exactly one
entry, so `imageUrls.length = N` and, at flow level, `N > 0` yields a
present list of length `N` while `N = 0` yields an absent list; in the
no-fallback variant each index contributes at most one entry, so the
length is only bounded by `N`. -/
theorem blog_image_slots_amended :
    ∀ (orc : ImageOracles) (n : ℕ) (content : String), content ≠ "" →
      (imageUrlsV1 orc n content).length = n
      ∧ (imageUrlsV3 orc n).length ≤ n
      ∧ ∀ ttl : String, ttl ≠ "" →
          ∃ out, generateBlogPostFlowV1 orc (some ⟨ttl, content⟩) n = .ok out
            ∧ (0 < n → ∃ l, out.imageUrls = some l ∧ l.length = n)
            ∧ (n = 0 → out.imageUrls = none) := by
  intro orc n content hc
  refine ⟨imageUrlsV1_length orc n hc, ?_, ?_⟩
  · unfold imageUrlsV3
    by_cases hn : 0 < n
    · simp only [hn, if_true]
      calc ((List.range n).filterMap (slotV3 orc)).length
          ≤ (List.range n).length := List.length_filterMap_le _ _
        _ = n := List.length_range n
    · simp [hn]
  · intro ttl ht
    have hcond : ¬(ttl = "" ∨ content = "") := by
      simp [ht, hc]
    simp only [generateBlogPostFlowV1]
    rw [if_neg hcond]
    refine ⟨_, rfl, ?_, ?_⟩
    · intro hn
      have hlen : (imageUrlsV1 orc n content).length = n := imageUrlsV1_length orc n hc
      refine ⟨imageUrlsV1 orc n content, ?_, hlen⟩
      match hu : imageUrlsV1 orc n content with
      | [] => rw [hu] at hlen; simp at hlen; omega
      | u :: rest => simp [hu]
    · intro hn
      subst hn
      have hu : imageUrlsV1 orc 0 content = [] := by
        have := imageUrlsV1_length orc 0 hc
        exact List.length_eq_zero.mp this
      simp [hu]

/-- Witness for C1's amended theorem at a concrete input: one requested
picture with a failing synthesis still yields exactly one (fallback)
entry. -/
theorem blog_image_slots_amended_witness :
    (imageUrlsV1 allFailOracles 1 "Solar panels.").length = 1 :=
  (blog_image_slots_amended allFailOracles 1 "Solar panels." (by decide)).1

/-- C3 counterexample: in the `placehold.co` variant cited by the claim,
indices 1 and 2 both fail and both receive the identical generic fallback
reference — the fallback is not distinct per index. -/
theorem blog_fallback_counterexample :
    imageUrlsV1 allFailOracles 2 "Some content." = [genericFallback, genericFallback] := by
  decide

/-- C3 amended: in the `picsum.photos` variant the fallback written into
slot `i` is deterministic and seeded by the 1-based index — the caught
failure and empty-result cases produce the documented per-index patterns,
and those patterns are pairwise distinct across the admissible indices
(`numPictures ≤ 5`); in the `placehold.co` variant all failing indices
share the single generic reference. -/
theorem blog_fallback_seeded_amended :
    (∀ (orc : ImageOracles) (n : ℕ) (content : String) (i : ℕ), i < n → content ≠ "" →
      ((imageUrlsV2 orc n content).get? i = some (slotV2 orc content i)
        ∧ (orc.promptResult i (imageContext content (placeholderToken (i + 1)) 100)
              = .error () →
            slotV2 orc content i = picsumErrorFallback (i + 1))
        ∧ (orc.promptResult i (imageContext content (placeholderToken (i + 1)) 100)
              = .ok none →
            slotV2 orc content i = picsumPlaceholderFallback (i + 1))
        ∧ (∀ p, orc.promptResult i (imageContext content (placeholderToken (i + 1)) 100)
              = .ok (some p) →
            (orc.mediaResult i p = .error () →
              slotV2 orc content i = picsumErrorFallback (i + 1))
            ∧ (orc.mediaResult i p = .ok none →
              slotV2 orc content i = picsumPlaceholderFallback (i + 1)))))
    ∧ (∀ i < 5, ∀ j < 5, i ≠ j →
        picsumErrorFallback (i + 1) ≠ picsumErrorFallback (j + 1)
        ∧ picsumPlaceholderFallback (i + 1) ≠ picsumPlaceholderFallback (j + 1)
        ∧ picsumErrorFallback (i + 1) ≠ picsumPlaceholderFallback (j + 1)) := by
  constructor
  · intro orc n content i hi hc
    have hn : 0 < n := Nat.pos_of_ne_zero (by omega)
    refine ⟨?_, ?_, ?_, ?_⟩
    · unfold imageUrlsV2
      rw [if_pos ⟨hn, hc⟩]
      rw [List.get?_eq_getElem?]
      simp [List.getElem?_map, List.getElem?_range, hi]
    · intro h
      simp only [slotV2, h]
    · intro h
      simp only [slotV2, h]
    · intro p hp
      constructor
      · intro h
        simp only [slotV2, hp, h]
      · intro h
        simp only [slotV2, hp, h]
  · decide

/-- Witness for C3's amended theorem at a concrete input: with every call
failing, slot 2 of a two-picture request holds the error fallback seeded
by index 2. -/
theorem blog_fallback_seeded_amended_witness :
    (imageUrlsV2 allFailOracles 2 "Solar panels.").get? 1
      = some (slotV2 allFailOracles "Solar panels." 1) :=
  ((blog_fallback_seeded_amended.1 allFailOracles 2 "Solar panels." 1
    (by decide) (by decide)).1)

/-- C6: for every successful result of the `placehold.co`-variant flow,
a present `imageUrls` list is non-empty and `thumbnailUrl` is its first
entry, while an absent `imageUrls` comes with an absent `thumbnailUrl`. -/
theorem blog_thumbnail_first_image :
    ∀ (orc : ImageOracles) (textOut : Option BlogTextOut) (n : ℕ) (out : BlogPostOut),
      generateBlogPostFlowV1 orc textOut n = .ok out →
      (∀ l, out.imageUrls = some l →
        ∃ u rest, l = u :: rest ∧ out.thumbnailUrl = some u)
      ∧ (out.imageUrls = none → out.thumbnailUrl = none) := by
  intro orc textOut n out hok
  match textOut with
  | none => simp [generateBlogPostFlowV1] at hok
  | some t =>
    simp only [generateBlogPostFlowV1] at hok
    by_cases hcond : t.title = "" ∨ t.content = ""
    · rw [if_pos hcond] at hok
      exact absurd hok (by simp)
    · rw [if_neg hcond] at hok
      have hc : t.content ≠ "" := fun h => hcond (Or.inr h)
      have hout := (Except.ok.injEq _ _).mp hok
      match hu : imageUrlsV1 orc n t.content with
      | [] =>
        have hn : n = 0 := by
          have := imageUrlsV1_length orc n hc
          rw [hu] at this
          simpa using this.symm
        rw [hu] at hout
        constructor
        · intro l hl
          rw [← hout] at hl
          simp at hl
        · intro _
          rw [← hout]
          simp [hn]
      | u :: rest =>
        rw [hu] at hout
        constructor
        · intro l hl
          rw [← hout] at hl
          simp only at hl
          refine ⟨u, rest, ?_, ?_⟩
          · exact (Option.some.injEq _ _).mp hl.symm
          · rw [← hout]
        · intro hnone
          rw [← hout] at hnone
          simp at hnone

/-- Witness for C6 at a concrete input: a one-picture request with failing
synthesis yields a present single-entry list whose entry is the
thumbnail. -/
theorem blog_thumbnail_first_image_witness :
    (⟨"T", "Body.", some [genericFallback], some genericFallback⟩ :
        BlogPostOut).thumbnailUrl = some genericFallback := by
  have h := blog_thumbnail_first_image allFailOracles (some ⟨"T", "Body."⟩) 1
    ⟨"T", "Body.", some [genericFallback], some genericFallback⟩ (by rfl)
  rcases h.1 [genericFallback] rfl with ⟨u, rest, hl, hthumb⟩
  have hu : u = genericFallback := by
    have := hl
    simp at this
    exact this.1.symm
  rw [hthumb, hu]

/-! ## Placeholder resolution (`content-generator.tsx`, `renderBlogContent`)

`renderBlogContent` pipes the content through three global regex
replacements: `**bold**` to `<strong>`, newlines to `<br />`, and the
placeholder tokens to figures (or to nothing).  Each replacement is a
single left-to-right scan that, at every position, either consumes a
match and emits its replacement or emits one character and advances —
exactly the semantics of a global `String.replace`.  The scanners take a
fuel argument (instantiated with the input length, which always
suffices) so that they stay structurally recursive and computable. -/

/-- Lazy closing search of `\*\*(.*?)\*\*`: the shortest inner text (`.`
does not cross a newline) followed by a closing `**`. -/
def findBoldClose : List Char → Option (List Char × List Char)
  | [] => none
  | c :: cs =>
    if c = '*' ∧ cs.head? = some '*' then some ([], cs.tail)
    else if c = '\n' then none
    else (findBoldClose cs).map (fun p => (c :: p.1, p.2))

/-- Match of `\*\*(.*?)\*\*` at the head of the input: opening `**`, the
lazy inner group, the remainder after the closing `**`. -/
def boldMatchAt : List Char → Option (List Char × List Char)
  | '*' :: '*' :: cs => findBoldClose cs
  | _ => none

/-- One global pass of `content.replace(/\*\*(.*?)\*\*\/g, '<strong>$1</strong>')`:
at each position either consume a match or emit one character (fuelled;
the fuel, instantiated with the input length, always suffices). -/
def boldReplaceF : ℕ → List Char → List Char
  | 0, l => l
  | _ + 1, [] => []
  | f + 1, c :: cs =>
    match boldMatchAt (c :: cs) with
    | some (inner, rest) =>
        "<strong>".data ++ inner ++ "</strong>".data ++ boldReplaceF f rest
    | none => c :: boldReplaceF f cs

def boldReplace (l : List Char) : List Char := boldReplaceF l.length l

/-- Match of `\n\n+` at the head of the input: on success, the remainder
after the maximal newline run. -/
def nlRunMatchAt : List Char → Option (List Char)
  | '\n' :: '\n' :: cs => some (cs.dropWhile (· = '\n'))
  | _ => none

/-- One global pass of `.replace(/\n\n+/g, '<br /><br />')`: each maximal
run of two or more newlines becomes a double break (fuelled). -/
def nlRunsReplaceF : ℕ → List Char → List Char
  | 0, l => l
  | _ + 1, [] => []
  | f + 1, c :: cs =>
    match nlRunMatchAt (c :: cs) with
    | some rest => "<br /><br />".data ++ nlRunsReplaceF f rest
    | none => c :: nlRunsReplaceF f cs

def nlRunsReplace (l : List Char) : List Char := nlRunsReplaceF l.length l

/-- The second newline pass, `.replace(/\n/g, '<br />')`. -/
def nlSingleReplace : List Char → List Char
  | [] => []
  | c :: cs => (if c = '\n' then "<br />".data else [c]) ++ nlSingleReplace cs

/-- Strip an expected literal prefix, or fail. -/
def dropPrefixCh : List Char → List Char → Option (List Char)
  | l, [] => some l
  | [], _ :: _ => none
  | c :: cs, p :: ps => if c = p then dropPrefixCh cs ps else none

/-- Maximal leading digit run. -/
def takeDigits : List Char → List Char × List Char
  | [] => ([], [])
  | c :: cs =>
    if c.isDigit then
      let p := takeDigits cs
      (c :: p.1, p.2)
    else ([], c :: cs)

/-- Match of `\[IMAGE_PLACEHOLDER_(\d+)\]` at the head of the input: on
success, the captured digits and the remainder after the match. -/
def phMatchAt (l : List Char) : Option (List Char × List Char) :=
  match dropPrefixCh l "[IMAGE_PLACEHOLDER_".data with
  | none => none
  | some l1 =>
    match takeDigits l1 with
    | ([], _) => none
    | (d, r) =>
      match r with
      | ']' :: rest => some (d, rest)
      | _ => none

/-- One global pass of `.replace(/\[IMAGE_PLACEHOLDER_(\d+)\]/g, fn)`,
with `fn` applied to the captured digit group (fuelled). -/
def phReplaceF (repl : List Char → List Char) : ℕ → List Char → List Char
  | 0, l => l
  | _ + 1, [] => []
  | f + 1, c :: cs =>
    match phMatchAt (c :: cs) with
    | some (d, rest) => repl d ++ phReplaceF repl f rest
    | none => c :: phReplaceF repl f cs

def phReplace (repl : List Char → List Char) (l : List Char) : List Char :=
  phReplaceF repl l.length l

/-- `parseInt(p1, 10)` on a digit string. -/
def digitsToNat (d : List Char) : ℕ :=
  d.foldl (fun a c => a * 10 + (c.toNat - '0'.toNat)) 0

def strStartsWith (s pre : String) : Bool := listStartsWith s.data pre.data

/-- `imageUrl.startsWith('data:image') || imageUrl.startsWith('http') ?
imageUrl : 'https://placehold.co/600x400.png'`. -/
def finalImageUrl (url : String) : String :=
  if strStartsWith url "data:image" || strStartsWith url "http" then url
  else "https://placehold.co/600x400.png"

/-- `blogPost.title || mainKeyword || 'Generated blog image <n>'`. -/
def altTextOf (title formKeyword : String) (idx1 : ℕ) : String :=
  if title ≠ "" then title
  else if formKeyword ≠ "" then formKeyword
  else "Generated blog image " ++ Nat.repr idx1

/-- The figure markup emitted for an in-range placeholder. -/
def figureHtml (finalUrl altText : String) (idx1 : ℕ) : String :=
  "<figure class=\"my-6 flex justify-center\"><img src=\"" ++ finalUrl
    ++ "\" alt=\"" ++ altText ++ " - illustration " ++ Nat.repr idx1
    ++ "\" class=\"max-w-full h-auto rounded-lg shadow-lg border border-border\" data-ai-hint=\"blog illustration\" /></figure>"

/-- The replacement callback of the non-empty-`imageUrls` branch:
`imageIndex = parseInt(p1, 10) - 1`; an in-range index (at least 0 and
below the list length — so the captured number is at least 1) yields the
figure, an out-of-range one the empty string. -/
def figCallback (urls : List String) (title formKeyword : String) (d : List Char) :
    List Char :=
  if 1 ≤ digitsToNat d ∧ digitsToNat d - 1 < urls.length then
    (figureHtml (finalImageUrl (urls.getD (digitsToNat d - 1) ""))
      (altTextOf title formKeyword (digitsToNat d)) (digitsToNat d)).data
  else []

/-- `renderBlogContent`: bold pass, the two newline passes, then the
placeholder pass — with the figure callback when `imageUrls` is present
and non-empty, and the stripping callback otherwise. -/
def renderBlogContent (bp : BlogPostOut) (formKeyword : String) : String :=
  let c1 := boldReplace bp.content.data
  let c2 := nlSingleReplace (nlRunsReplace c1)
  match bp.imageUrls with
  | some (u :: us) =>
      String.mk (phReplace (figCallback (u :: us) bp.title formKeyword) c2)
  | _ => String.mk (phReplace (fun _ => []) c2)

/-- A placeholder token of the grammar occurs somewhere in the text. -/
def containsToken : List Char → Bool
  | [] => false
  | c :: cs => (phMatchAt (c :: cs)).isSome || containsToken cs

/-- A decomposition of content into literal text stretches and placeholder
tokens (the token's digit group is kept verbatim). -/
inductive Seg
  | text (s : List Char)
  | tok (d : List Char)

/-- The content denoted by a decomposition. -/
def segsToContent : List Seg → List Char
  | [] => []
  | .text s :: rest => s ++ segsToContent rest
  | .tok d :: rest => "[IMAGE_PLACEHOLDER_".data ++ (d ++ ']' :: segsToContent rest)

/-- Well-formed decomposition: literal stretches contain no bracket (so
tokens neither nest in nor splice around one another), and each token
carries a non-empty digit group. -/
def SegWF : Seg → Prop
  | .text s => ∀ c ∈ s, c ≠ '['
  | .tok d => d ≠ [] ∧ ∀ c ∈ d, c.isDigit = true

/-- The decomposition with every token replaced through `repl`. -/
def renderedSegs (repl : List Char → List Char) : List Seg → List Char
  | [] => []
  | .text s :: rest => s ++ renderedSegs repl rest
  | .tok d :: rest => repl d ++ renderedSegs repl rest

/-- The ordered list of token digit groups of a decomposition. -/
def segTokens : List Seg → List (List Char)
  | [] => []
  | .text _ :: rest => segTokens rest
  | .tok d :: rest => d :: segTokens rest

theorem toDigitsCore_digits :
    ∀ (fuel n : ℕ) (ds : List Char), (∀ c ∈ ds, c.isDigit = true) →
      ∀ c ∈ Nat.toDigitsCore 10 fuel n ds, c.isDigit = true := by
  intro fuel
  induction fuel with
  | zero => intro n ds hds; exact hds
  | succ f ih =>
    intro n ds hds c hc
    have hlt : n % 10 < 10 := Nat.mod_lt _ (by norm_num)
    have hdigit : (Nat.digitChar (n % 10)).isDigit = true := by
      have : ∀ m < 10, (Nat.digitChar m).isDigit = true := by decide
      exact this _ hlt
    have hds' : ∀ c ∈ Nat.digitChar (n % 10) :: ds, c.isDigit = true := by
      intro c hc
      rcases List.mem_cons.mp hc with h | h
      · rw [h]; exact hdigit
      · exact hds c h
    unfold Nat.toDigitsCore at hc
    by_cases hz : n / 10 = 0
    · rw [if_pos hz] at hc
      exact hds' c hc
    · rw [if_neg hz] at hc
      exact ih (n / 10) _ hds' c hc

theorem repr_digits (n : ℕ) : ∀ c ∈ (Nat.repr n).data, c.isDigit = true := by
  intro c hc
  have : (Nat.repr n).data = Nat.toDigitsCore 10 (n + 1) n [] := rfl
  rw [this] at hc
  exact toDigitsCore_digits (n + 1) n [] (by intro c h; cases h) c hc

theorem digit_ne {c ch : Char} (h : c.isDigit = true) (h2 : ch.isDigit = false) :
    c ≠ ch := by
  intro he
  rw [he, h2] at h
  cases h

theorem boldMatchAt_none {c : Char} (cs : List Char) (hc : c ≠ '*') :
    boldMatchAt (c :: cs) = none := by
  unfold boldMatchAt
  split
  · rename_i heq
    injection heq with h1 _
    exact absurd h1 hc
  · rfl

theorem nlRunMatchAt_none {c : Char} (cs : List Char) (hc : c ≠ '\n') :
    nlRunMatchAt (c :: cs) = none := by
  unfold nlRunMatchAt
  split
  · rename_i heq
    injection heq with h1 _
    exact absurd h1 hc
  · rfl

theorem boldReplaceF_id :
    ∀ (l : List Char) (f : ℕ), (∀ c ∈ l, c ≠ '*') → boldReplaceF f l = l := by
  intro l
  induction l with
  | nil => intro f _; cases f <;> rfl
  | cons c cs ih =>
    intro f h
    cases f with
    | zero => rfl
    | succ g =>
      have hc : c ≠ '*' := h c (by simp)
      simp only [boldReplaceF, boldMatchAt_none cs hc]
      rw [ih g (fun x hx => h x (by simp [hx]))]

theorem nlRunsReplaceF_id :
    ∀ (l : List Char) (f : ℕ), (∀ c ∈ l, c ≠ '\n') → nlRunsReplaceF f l = l := by
  intro l
  induction l with
  | nil => intro f _; cases f <;> rfl
  | cons c cs ih =>
    intro f h
    cases f with
    | zero => rfl
    | succ g =>
      have hc : c ≠ '\n' := h c (by simp)
      simp only [nlRunsReplaceF, nlRunMatchAt_none cs hc]
      rw [ih g (fun x hx => h x (by simp [hx]))]

theorem nlSingleReplace_id :
    ∀ (l : List Char), (∀ c ∈ l, c ≠ '\n') → nlSingleReplace l = l := by
  intro l
  induction l with
  | nil => intro _; rfl
  | cons c cs ih =>
    intro h
    have hc : c ≠ '\n' := h c (by simp)
    simp only [nlSingleReplace, if_neg hc]
    rw [ih (fun x hx => h x (by simp [hx]))]
    rfl

theorem dropPrefixCh_cons_ne {c p : Char} (cs ps : List Char) (h : c ≠ p) :
    dropPrefixCh (c :: cs) (p :: ps) = none := by
  simp [dropPrefixCh, h]

theorem dropPrefixCh_append :
    ∀ (p l : List Char), dropPrefixCh (p ++ l) p = some l := by
  intro p
  induction p with
  | nil => intro l; cases l <;> rfl
  | cons c cs ih => intro l; simp [dropPrefixCh, ih]

theorem takeDigits_digits_append (d rest : List Char)
    (hdig : ∀ c ∈ d, c.isDigit = true) :
    takeDigits (d ++ ']' :: rest) = (d, ']' :: rest) := by
  induction d with
  | nil => simp [takeDigits]
  | cons c cs ih =>
    have hc : c.isDigit = true := hdig c (by simp)
    have ih' := ih (fun x hx => hdig x (by simp [hx]))
    simp [takeDigits, hc, ih']

theorem phMatchAt_none_of_ne {c : Char} (cs : List Char) (hc : c ≠ '[') :
    phMatchAt (c :: cs) = none := by
  unfold phMatchAt
  rw [show ("[IMAGE_PLACEHOLDER_" : String).data
      = '[' :: ("IMAGE_PLACEHOLDER_" : String).data from rfl]
  rw [dropPrefixCh_cons_ne cs _ hc]

theorem phMatchAt_token (d rest : List Char) (hd : d ≠ [])
    (hdig : ∀ c ∈ d, c.isDigit = true) :
    phMatchAt ("[IMAGE_PLACEHOLDER_".data ++ (d ++ ']' :: rest)) = some (d, rest) := by
  match d, hd with
  | c :: d', _ =>
    have h1 := takeDigits_digits_append (c :: d') rest hdig
    unfold phMatchAt
    rw [dropPrefixCh_append]
    simp only [h1]

theorem phReplaceF_text_lead (repl : List Char → List Char) :
    ∀ (s : List Char) (f : ℕ) (rest : List Char),
      (∀ c ∈ s, c ≠ '[') → s.length + rest.length ≤ f →
      phReplaceF repl f (s ++ rest) = s ++ phReplaceF repl (f - s.length) rest := by
  intro s
  induction s with
  | nil => intro f rest _ _; simp
  | cons c cs ih =>
    intro f rest h hf
    cases f with
    | zero => simp at hf
    | succ g =>
      have hc : c ≠ '[' := h c (by simp)
      simp only [List.cons_append, phReplaceF, phMatchAt_none_of_ne _ hc,
        List.append_eq]
      rw [ih g rest (fun x hx => h x (by simp [hx])) (by simp at hf; omega)]
      have hl : g + 1 - (c :: cs).length = g - cs.length := by
        simp only [List.length_cons]
        omega
      rw [hl]

theorem phReplaceF_segs (repl : List Char → List Char) :
    ∀ (segs : List Seg) (f : ℕ), (∀ sg ∈ segs, SegWF sg) →
      (segsToContent segs).length ≤ f →
      phReplaceF repl f (segsToContent segs) = renderedSegs repl segs := by
  intro segs
  induction segs with
  | nil => intro f _ _; cases f <;> rfl
  | cons sg rest ih =>
    intro f hwf hf
    have hwfrest : ∀ x ∈ rest, SegWF x := fun x hx => hwf x (by simp [hx])
    match sg with
    | .text s =>
      have hwfs : ∀ c ∈ s, c ≠ '[' := by
        have h0 := hwf (.text s) (by simp)
        simp only [SegWF] at h0
        exact h0
      have hflen : s.length + (segsToContent rest).length ≤ f := by
        have : (segsToContent (Seg.text s :: rest)).length
            = s.length + (segsToContent rest).length := by
          simp [segsToContent]
        omega
      simp only [segsToContent]
      rw [phReplaceF_text_lead repl s f (segsToContent rest) hwfs hflen]
      rw [ih (f - s.length) hwfrest (by omega)]
      rfl
    | .tok d =>
      have h0 := hwf (.tok d) (by simp)
      simp only [SegWF] at h0
      obtain ⟨hd, hdig⟩ := h0
      have hshape : segsToContent (.tok d :: rest)
          = '[' :: ("IMAGE_PLACEHOLDER_".data ++ (d ++ ']' :: segsToContent rest)) := by
        simp [segsToContent]
      have hge : (segsToContent rest).length < (segsToContent (Seg.tok d :: rest)).length := by
        rw [hshape]
        simp [List.length_append]
        omega
      cases f with
      | zero => omega
      | succ g =>
        rw [hshape]
        have hmatch : phMatchAt ('[' :: ("IMAGE_PLACEHOLDER_".data
            ++ (d ++ ']' :: segsToContent rest))) = some (d, segsToContent rest) := by
          have := phMatchAt_token d (segsToContent rest) hd hdig
          rw [show ("[IMAGE_PLACEHOLDER_" : String).data
            = '[' :: ("IMAGE_PLACEHOLDER_" : String).data from rfl] at this
          simpa using this
        simp only [phReplaceF, hmatch]
        rw [ih g hwfrest (by omega)]
        rfl

theorem containsToken_eq_false :
    ∀ (l : List Char), (∀ c ∈ l, c ≠ '[') → containsToken l = false := by
  intro l
  induction l with
  | nil => intro _; rfl
  | cons c cs ih =>
    intro h
    have hc : c ≠ '[' := h c (by simp)
    simp only [containsToken, phMatchAt_none_of_ne _ hc, Option.isSome_none,
      Bool.false_or]
    exact ih (fun x hx => h x (by simp [hx]))

theorem data_append (x y : String) : (x ++ y).data = x.data ++ y.data := rfl

theorem repr_no_bracket (n : ℕ) : ∀ c ∈ (Nat.repr n).data, c ≠ '[' :=
  fun c hc => digit_ne (repr_digits n c hc) (by decide)

theorem finalImageUrl_no_bracket (u : String) (hu : ∀ c ∈ u.data, c ≠ '[') :
    ∀ c ∈ (finalImageUrl u).data, c ≠ '[' := by
  unfold finalImageUrl
  split
  · exact hu
  · decide

theorem altTextOf_no_bracket (t k : String) (n : ℕ)
    (ht : ∀ c ∈ t.data, c ≠ '[') (hk : ∀ c ∈ k.data, c ≠ '[') :
    ∀ c ∈ (altTextOf t k n).data, c ≠ '[' := by
  unfold altTextOf
  split
  · exact ht
  · split
    · exact hk
    · intro c hc
      rw [data_append] at hc
      rcases List.mem_append.mp hc with h | h
      · revert h
        have : ∀ c ∈ ("Generated blog image " : String).data, c ≠ '[' := by decide
        exact fun h => this c h
      · exact repr_no_bracket n c h

theorem figureHtml_no_bracket (u a : String) (n : ℕ)
    (hu : ∀ c ∈ u.data, c ≠ '[') (ha : ∀ c ∈ a.data, c ≠ '[') :
    ∀ c ∈ (figureHtml u a n).data, c ≠ '[' := by
  intro c hc
  unfold figureHtml at hc
  simp only [data_append, List.mem_append] at hc
  rcases hc with ((((((h | h) | h) | h) | h) | h) | h)
  · revert h
    have : ∀ c ∈ ("<figure class=\"my-6 flex justify-center\"><img src=\"" : String).data,
        c ≠ '[' := by decide
    exact fun h => this c h
  · exact hu c h
  · revert h
    have : ∀ c ∈ ("\" alt=\"" : String).data, c ≠ '[' := by decide
    exact fun h => this c h
  · exact ha c h
  · revert h
    have : ∀ c ∈ (" - illustration " : String).data, c ≠ '[' := by decide
    exact fun h => this c h
  · exact repr_no_bracket n c h
  · revert h
    have : ∀ c ∈ ("\" class=\"max-w-full h-auto rounded-lg shadow-lg border border-border\" data-ai-hint=\"blog illustration\" /></figure>" : String).data,
        c ≠ '[' := by decide
    exact fun h => this c h

theorem figCallback_no_bracket (urls : List String) (t k : String) (d : List Char)
    (hurls : ∀ u ∈ urls, ∀ c ∈ u.data, c ≠ '[')
    (ht : ∀ c ∈ t.data, c ≠ '[') (hk : ∀ c ∈ k.data, c ≠ '[') :
    ∀ c ∈ figCallback urls t k d, c ≠ '[' := by
  unfold figCallback
  split
  · rename_i hcond
    apply figureHtml_no_bracket
    · apply finalImageUrl_no_bracket
      apply hurls
      have hlt : digitsToNat d - 1 < urls.length := hcond.2
      rw [List.getD_eq_getElem?_getD, List.getElem?_eq_getElem hlt]
      exact List.getElem_mem hlt
    · exact altTextOf_no_bracket t k _ ht hk
  · intro c hc; cases hc

theorem renderedSegs_no_bracket (repl : List Char → List Char) (segs : List Seg)
    (hwf : ∀ sg ∈ segs, SegWF sg) (hrepl : ∀ d, ∀ c ∈ repl d, c ≠ '[') :
    ∀ c ∈ renderedSegs repl segs, c ≠ '[' := by
  induction segs with
  | nil => intro c hc; cases hc
  | cons sg rest ih =>
    have ih' := ih (fun x hx => hwf x (by simp [hx]))
    intro c hc
    match sg with
    | .text s =>
      have h0 := hwf (.text s) (by simp)
      simp only [SegWF] at h0
      simp only [renderedSegs, List.mem_append] at hc
      rcases hc with h | h
      · exact h0 c h
      · exact ih' c h
    | .tok d =>
      simp only [renderedSegs, List.mem_append] at hc
      rcases hc with h | h
      · exact hrepl d c h
      · exact ih' c h

/-- C5 counterexample: on content with a nested placeholder pair and no
images, a single left-to-right replacement pass removes only the inner
token; the pieces around it join into a token that survives in the
rendered output. -/
theorem render_strips_placeholders_counterexample :
    renderBlogContent
        ⟨"T", "[IMAGE_PLACEHOLDER_1[IMAGE_PLACEHOLDER_2]]", none, none⟩ "kw"
      = "[IMAGE_PLACEHOLDER_1]"
    ∧ containsToken ("[IMAGE_PLACEHOLDER_1]" : String).data = true := by
  constructor
  · rfl
  · decide


theorem length_dropWhile_le2 (p : Char → Bool) :
    ∀ l : List Char, (l.dropWhile p).length ≤ l.length := by
  intro l
  induction l with
  | nil => exact le_refl _
  | cons c cs ih =>
    by_cases h : p c
    · rw [List.dropWhile_cons_of_pos h]
      exact le_trans ih (by simp)
    · rw [List.dropWhile_cons_of_neg h]

theorem segsToContent_append :
    ∀ (a b : List Seg), segsToContent (a ++ b) = segsToContent a ++ segsToContent b := by
  intro a b
  induction a with
  | nil => rfl
  | cons sg rest ih =>
    match sg with
    | .text s => simp [segsToContent, ih]
    | .tok d => simp [segsToContent, ih]

theorem segTokens_append :
    ∀ (a b : List Seg), segTokens (a ++ b) = segTokens a ++ segTokens b := by
  intro a b
  induction a with
  | nil => rfl
  | cons sg rest ih =>
    match sg with
    | .text s => simp [segTokens, ih]
    | .tok d => simp [segTokens, ih]

/-- Every character of a full placeholder token differs from a character
that is not in the literal stem, not a digit, and not the closing
bracket. -/
theorem token_flat_ne (d : List Char) (hdig : ∀ c ∈ d, c.isDigit = true) (ch : Char)
    (h1 : ch ∉ ("[IMAGE_PLACEHOLDER_" : String).data) (h2 : ch.isDigit = false)
    (h3 : ch ≠ ']') :
    ∀ c ∈ "[IMAGE_PLACEHOLDER_".data ++ (d ++ [']']), c ≠ ch := by
  intro c hc
  rcases List.mem_append.mp hc with h | h
  · intro he; rw [he] at h; exact h1 h
  · rcases List.mem_append.mp h with h | h
    · exact digit_ne (hdig c h) h2
    · have : c = ']' := List.mem_singleton.mp h
      rw [this]; intro he; exact h3 he.symm

theorem token_content_shape (d rc : List Char) :
    "[IMAGE_PLACEHOLDER_".data ++ (d ++ ']' :: rc)
      = ("[IMAGE_PLACEHOLDER_".data ++ (d ++ [']'])) ++ rc := by
  simp [List.append_assoc]

theorem boldMatchAt_pos (cs : List Char) :
    boldMatchAt ('*' :: '*' :: cs) = findBoldClose cs := rfl

theorem boldMatchAt_short : ∀ (c : Char), boldMatchAt [c] = none := by
  intro c
  unfold boldMatchAt
  split
  · rename_i heq
    simp at heq
  · rfl

theorem boldMatchAt_nil : boldMatchAt [] = none := by
  unfold boldMatchAt
  split
  · rename_i heq
    simp at heq
  · rfl

theorem boldMatchAt_cons2_none {c1 c2 : Char} (cs : List Char)
    (h : ¬(c1 = '*' ∧ c2 = '*')) : boldMatchAt (c1 :: c2 :: cs) = none := by
  unfold boldMatchAt
  split
  · rename_i heq
    injection heq with e1 heq'
    injection heq' with e2 _
    exact absurd ⟨e1, e2⟩ h
  · rfl

theorem nlRunMatchAt_pos (cs : List Char) :
    nlRunMatchAt ('\n' :: '\n' :: cs) = some (cs.dropWhile (· = '\n')) := rfl

theorem nlRunMatchAt_cons2_none {c1 c2 : Char} (cs : List Char)
    (h : ¬(c1 = '\n' ∧ c2 = '\n')) : nlRunMatchAt (c1 :: c2 :: cs) = none := by
  unfold nlRunMatchAt
  split
  · rename_i heq
    injection heq with e1 heq'
    injection heq' with e2 _
    exact absurd ⟨e1, e2⟩ h
  · rfl

theorem nlRunMatchAt_nil : nlRunMatchAt [] = none := by
  unfold nlRunMatchAt
  split
  · rename_i heq
    simp at heq
  · rfl

theorem nlRunMatchAt_short : ∀ (c : Char), nlRunMatchAt [c] = none := by
  intro c
  unfold nlRunMatchAt
  split
  · rename_i heq
    simp at heq
  · rfl

/-- Characterization of the lazy close search: on success the input splits
as the newline-free inner group, the closing `**`, and the remainder. -/
theorem findBoldClose_eq :
    ∀ (cs i r : List Char), findBoldClose cs = some (i, r) →
      cs = i ++ '*' :: '*' :: r ∧ ∀ c ∈ i, c ≠ '\n' := by
  intro cs
  induction cs with
  | nil =>
    intro i r h
    exact absurd h (by simp [findBoldClose])
  | cons c cs ih =>
    intro i r h
    unfold findBoldClose at h
    by_cases hhd : c = '*' ∧ cs.head? = some '*'
    · rw [if_pos hhd] at h
      simp only [Option.some.injEq, Prod.mk.injEq] at h
      obtain ⟨hi, hr⟩ := h
      subst hi
      subst hr
      obtain ⟨hc, hcs⟩ := hhd
      subst hc
      match cs, hcs with
      | c2 :: cs', hcs =>
        have : c2 = '*' := by simpa using hcs
        subst this
        exact ⟨rfl, by intro c hc; cases hc⟩
    · rw [if_neg hhd] at h
      by_cases hnl : c = '\n'
      · rw [if_pos hnl] at h
        exact absurd h (by simp)
      · rw [if_neg hnl] at h
        obtain ⟨⟨i', r'⟩, hfc, hf⟩ := Option.map_eq_some'.mp h
        simp only [Prod.mk.injEq] at hf
        obtain ⟨hi, hr⟩ := hf
        subst hi
        subst hr
        obtain ⟨hcs, hnlmem⟩ := ih i' r' hfc
        refine ⟨by rw [hcs]; rfl, ?_⟩
        intro x hx
        rcases List.mem_cons.mp hx with hx | hx
        · rw [hx]; exact hnl
        · exact hnlmem x hx

/-- Characterization of a bold match: the input is the opening `**`, the
newline-free inner group, the closing `**`, and the remainder. -/
theorem boldMatchAt_eq :
    ∀ (l i r : List Char), boldMatchAt l = some (i, r) →
      l = '*' :: '*' :: (i ++ '*' :: '*' :: r) ∧ ∀ c ∈ i, c ≠ '\n' := by
  intro l i r h
  match l with
  | [] => exact absurd h (by rw [boldMatchAt_nil]; simp)
  | [c] => exact absurd h (by rw [boldMatchAt_short]; simp)
  | c1 :: c2 :: cs =>
    by_cases h12 : c1 = '*' ∧ c2 = '*'
    · obtain ⟨rfl, rfl⟩ := h12
      rw [boldMatchAt_pos] at h
      obtain ⟨hcs, hnl⟩ := findBoldClose_eq cs i r h
      exact ⟨by rw [hcs], hnl⟩
    · rw [boldMatchAt_cons2_none cs h12] at h
      exact absurd h (by simp)

/-- Characterization of a newline-run match. -/
theorem nlRunMatchAt_eq :
    ∀ (l : List Char) (r : List Char), nlRunMatchAt l = some r →
      ∃ cs, l = '\n' :: '\n' :: cs ∧ r = cs.dropWhile (· = '\n') := by
  intro l r h
  match l with
  | [] => exact absurd h (by rw [nlRunMatchAt_nil]; simp)
  | [c] => exact absurd h (by rw [nlRunMatchAt_short]; simp)
  | c1 :: c2 :: cs =>
    by_cases h12 : c1 = '\n' ∧ c2 = '\n'
    · obtain ⟨rfl, rfl⟩ := h12
      rw [nlRunMatchAt_pos] at h
      exact ⟨cs, rfl, by simpa using h.symm⟩
    · rw [nlRunMatchAt_cons2_none cs h12] at h
      exact absurd h (by simp)


theorem boldReplaceF_succ_none {c : Char} {cs : List Char} (f : ℕ)
    (h : boldMatchAt (c :: cs) = none) :
    boldReplaceF (f + 1) (c :: cs) = c :: boldReplaceF f cs := by
  simp only [boldReplaceF, h]

theorem boldReplaceF_succ_some {c : Char} {cs i r : List Char} (f : ℕ)
    (h : boldMatchAt (c :: cs) = some (i, r)) :
    boldReplaceF (f + 1) (c :: cs)
      = "<strong>".data ++ i ++ "</strong>".data ++ boldReplaceF f r := by
  simp only [boldReplaceF, h]

theorem nlRunsReplaceF_succ_none {c : Char} {cs : List Char} (f : ℕ)
    (h : nlRunMatchAt (c :: cs) = none) :
    nlRunsReplaceF (f + 1) (c :: cs) = c :: nlRunsReplaceF f cs := by
  simp only [nlRunsReplaceF, h]

theorem nlRunsReplaceF_succ_some {c : Char} {cs r : List Char} (f : ℕ)
    (h : nlRunMatchAt (c :: cs) = some r) :
    nlRunsReplaceF (f + 1) (c :: cs)
      = "<br /><br />".data ++ nlRunsReplaceF f r := by
  simp only [nlRunsReplaceF, h]

theorem boldReplaceF_fuelirr :
    ∀ (n : ℕ) (l : List Char) (f g : ℕ), l.length ≤ n → l.length ≤ f → l.length ≤ g →
      boldReplaceF f l = boldReplaceF g l := by
  intro n
  induction n with
  | zero =>
    intro l f g hn _ _
    have hl : l = [] := List.length_eq_zero.mp (Nat.le_zero.mp hn)
    subst hl
    cases f <;> cases g <;> rfl
  | succ n ih =>
    intro l f g hn hf hg
    match l with
    | [] => cases f <;> cases g <;> rfl
    | c :: cs =>
      cases f with
      | zero => exact absurd hf (by simp)
      | succ f' =>
        cases g with
        | zero => exact absurd hg (by simp)
        | succ g' =>
          match hm : boldMatchAt (c :: cs) with
          | none =>
            rw [boldReplaceF_succ_none f' hm, boldReplaceF_succ_none g' hm]
            rw [ih cs f' g' (by simp at hn; omega) (by simp at hf; omega)
              (by simp at hg; omega)]
          | some (i, r) =>
            obtain ⟨hl, _⟩ := boldMatchAt_eq _ i r hm
            have hr : (c :: cs).length = i.length + 4 + r.length := by
              rw [hl]; simp; omega
            rw [boldReplaceF_succ_some f' hm, boldReplaceF_succ_some g' hm]
            rw [ih r f' g' (by simp at hn hr; omega) (by simp at hf hr; omega)
              (by simp at hg hr; omega)]

theorem nlRunsReplaceF_fuelirr :
    ∀ (n : ℕ) (l : List Char) (f g : ℕ), l.length ≤ n → l.length ≤ f → l.length ≤ g →
      nlRunsReplaceF f l = nlRunsReplaceF g l := by
  intro n
  induction n with
  | zero =>
    intro l f g hn _ _
    have hl : l = [] := List.length_eq_zero.mp (Nat.le_zero.mp hn)
    subst hl
    cases f <;> cases g <;> rfl
  | succ n ih =>
    intro l f g hn hf hg
    match l with
    | [] => cases f <;> cases g <;> rfl
    | c :: cs =>
      cases f with
      | zero => exact absurd hf (by simp)
      | succ f' =>
        cases g with
        | zero => exact absurd hg (by simp)
        | succ g' =>
          match hm : nlRunMatchAt (c :: cs) with
          | none =>
            rw [nlRunsReplaceF_succ_none f' hm, nlRunsReplaceF_succ_none g' hm]
            rw [ih cs f' g' (by simp at hn; omega) (by simp at hf; omega)
              (by simp at hg; omega)]
          | some r =>
            obtain ⟨cs', hl, hrd⟩ := nlRunMatchAt_eq _ r hm
            have hr : r.length ≤ cs'.length := hrd ▸ length_dropWhile_le2 _ cs'
            have hlen : (c :: cs).length = cs'.length + 2 := by rw [hl]; simp
            rw [nlRunsReplaceF_succ_some f' hm, nlRunsReplaceF_succ_some g' hm]
            rw [ih r f' g' (by simp at hn hlen; omega) (by simp at hf hlen; omega)
              (by simp at hg hlen; omega)]

theorem boldReplace_cons_none {c : Char} {cs : List Char}
    (h : boldMatchAt (c :: cs) = none) :
    boldReplace (c :: cs) = c :: boldReplace cs := by
  unfold boldReplace
  rw [show (c :: cs).length = cs.length + 1 from rfl]
  rw [boldReplaceF_succ_none cs.length h]

theorem boldReplace_cons_some {c : Char} {cs i r : List Char}
    (h : boldMatchAt (c :: cs) = some (i, r)) :
    boldReplace (c :: cs)
      = "<strong>".data ++ i ++ "</strong>".data ++ boldReplace r := by
  obtain ⟨hl, _⟩ := boldMatchAt_eq _ i r h
  have hlen : (c :: cs).length = i.length + 4 + r.length := by
    rw [hl]; simp; omega
  unfold boldReplace
  rw [show (c :: cs).length = cs.length + 1 from rfl]
  rw [boldReplaceF_succ_some cs.length h]
  rw [boldReplaceF_fuelirr cs.length r cs.length r.length
    (by simp at hlen; omega) (by simp at hlen; omega) (le_refl _)]

theorem nlRunsReplace_cons_none {c : Char} {cs : List Char}
    (h : nlRunMatchAt (c :: cs) = none) :
    nlRunsReplace (c :: cs) = c :: nlRunsReplace cs := by
  unfold nlRunsReplace
  rw [show (c :: cs).length = cs.length + 1 from rfl]
  rw [nlRunsReplaceF_succ_none cs.length h]

theorem nlRunsReplace_cons_some {c : Char} {cs : List Char} {r : List Char}
    (h : nlRunMatchAt (c :: cs) = some r) :
    nlRunsReplace (c :: cs) = "<br /><br />".data ++ nlRunsReplace r := by
  obtain ⟨cs', hl, hrd⟩ := nlRunMatchAt_eq _ r h
  have hr : r.length ≤ cs'.length := hrd ▸ length_dropWhile_le2 _ cs'
  have hlen : (c :: cs).length = cs'.length + 2 := by rw [hl]; simp
  unfold nlRunsReplace
  rw [show (c :: cs).length = cs.length + 1 from rfl]
  rw [nlRunsReplaceF_succ_some cs.length h]
  rw [nlRunsReplaceF_fuelirr cs.length r cs.length r.length
    (by simp at hlen; omega) (by simp at hlen; omega) (le_refl _)]

theorem boldReplaceF_clean_lead :
    ∀ (s : List Char) (f : ℕ) (rest : List Char),
      (∀ c ∈ s, c ≠ '*') → s.length + rest.length ≤ f →
      boldReplaceF f (s ++ rest) = s ++ boldReplaceF (f - s.length) rest := by
  intro s
  induction s with
  | nil => intro f rest _ _; simp
  | cons c cs ih =>
    intro f rest h hf
    cases f with
    | zero => simp at hf
    | succ g =>
      have hc : c ≠ '*' := h c (by simp)
      have hm : boldMatchAt (c :: (cs ++ rest)) = none := boldMatchAt_none _ hc
      simp only [List.cons_append, boldReplaceF, hm, List.append_eq]
      rw [ih g rest (fun x hx => h x (by simp [hx])) (by simp at hf; omega)]
      have hl : g + 1 - (c :: cs).length = g - cs.length := by
        simp only [List.length_cons]
        omega
      rw [hl]

theorem nlRunsReplaceF_clean_lead :
    ∀ (s : List Char) (f : ℕ) (rest : List Char),
      (∀ c ∈ s, c ≠ '\n') → s.length + rest.length ≤ f →
      nlRunsReplaceF f (s ++ rest) = s ++ nlRunsReplaceF (f - s.length) rest := by
  intro s
  induction s with
  | nil => intro f rest _ _; simp
  | cons c cs ih =>
    intro f rest h hf
    cases f with
    | zero => simp at hf
    | succ g =>
      have hc : c ≠ '\n' := h c (by simp)
      have hm : nlRunMatchAt (c :: (cs ++ rest)) = none := nlRunMatchAt_none _ hc
      simp only [List.cons_append, nlRunsReplaceF, hm, List.append_eq]
      rw [ih g rest (fun x hx => h x (by simp [hx])) (by simp at hf; omega)]
      have hl : g + 1 - (c :: cs).length = g - cs.length := by
        simp only [List.length_cons]
        omega
      rw [hl]

theorem boldReplace_clean_lead (s rest : List Char) (h : ∀ c ∈ s, c ≠ '*') :
    boldReplace (s ++ rest) = s ++ boldReplace rest := by
  unfold boldReplace
  rw [boldReplaceF_clean_lead s ((s ++ rest).length) rest h (by simp)]
  have hl : (s ++ rest).length - s.length = rest.length := by simp
  rw [hl]

theorem nlRunsReplace_clean_lead (s rest : List Char) (h : ∀ c ∈ s, c ≠ '\n') :
    nlRunsReplace (s ++ rest) = s ++ nlRunsReplace rest := by
  unfold nlRunsReplace
  rw [nlRunsReplaceF_clean_lead s ((s ++ rest).length) rest h (by simp)]
  have hl : (s ++ rest).length - s.length = rest.length := by simp
  rw [hl]

theorem nlSingleReplace_append :
    ∀ (a b : List Char),
      nlSingleReplace (a ++ b) = nlSingleReplace a ++ nlSingleReplace b := by
  intro a b
  induction a with
  | nil => rfl
  | cons c cs ih => simp [nlSingleReplace, ih]


/-- Head analysis of a well-formed decomposition's content: it is empty,
or begins with a full token, or begins with a non-bracket character — in
each case the remainder is again well-formed with the expected tokens. -/
theorem segs_head_cases :
    ∀ (segs : List Seg), (∀ sg ∈ segs, SegWF sg) →
      (segsToContent segs = [] ∧ segTokens segs = [])
      ∨ (∃ d segs₂, (∀ sg ∈ segs₂, SegWF sg) ∧ d ≠ [] ∧ (∀ c ∈ d, c.isDigit = true)
          ∧ segsToContent segs
              = "[IMAGE_PLACEHOLDER_".data ++ (d ++ ']' :: segsToContent segs₂)
          ∧ segTokens segs = d :: segTokens segs₂)
      ∨ (∃ c segs₂, c ≠ '[' ∧ (∀ sg ∈ segs₂, SegWF sg)
          ∧ segsToContent segs = c :: segsToContent segs₂
          ∧ segTokens segs = segTokens segs₂) := by
  intro segs
  induction segs with
  | nil => intro _; exact Or.inl ⟨rfl, rfl⟩
  | cons sg rest ih =>
    intro hwf
    have hwfrest : ∀ x ∈ rest, SegWF x := fun x hx => hwf x (by simp [hx])
    match sg with
    | .tok d =>
      have h0 := hwf (.tok d) (by simp)
      simp only [SegWF] at h0
      exact Or.inr (Or.inl ⟨d, rest, hwfrest, h0.1, h0.2, rfl, rfl⟩)
    | .text [] =>
      rcases ih hwfrest with ⟨h1, h2⟩ | ⟨d, s₂, hw, hd, hdig, hc, ht⟩
        | ⟨c, s₂, hc0, hw, hc, ht⟩
      · exact Or.inl ⟨by simp [segsToContent, h1], by simp [segTokens, h2]⟩
      · exact Or.inr (Or.inl ⟨d, s₂, hw, hd, hdig, by simp [segsToContent, hc],
          by simp [segTokens, ht]⟩)
      · exact Or.inr (Or.inr ⟨c, s₂, hc0, hw, by simp [segsToContent, hc],
          by simp [segTokens, ht]⟩)
    | .text (c :: s) =>
      have h0 := hwf (.text (c :: s)) (by simp)
      simp only [SegWF] at h0
      refine Or.inr (Or.inr ⟨c, .text s :: rest, h0 c (by simp), ?_, by
        simp [segsToContent], by simp [segTokens]⟩)
      intro x hx
      rcases List.mem_cons.mp hx with hx | hx
      · rw [hx]
        simp only [SegWF]
        exact fun y hy => h0 y (by simp [hy])
      · exact hwfrest x hx

/-- Shift a known occurrence of a character past a run known not to
contain it. -/
theorem append_split_at_char (ch : Char) :
    ∀ (a x b y : List Char), a ++ x = b ++ ch :: y → (∀ c ∈ a, c ≠ ch) →
      ∃ b₂, b = a ++ b₂ ∧ x = b₂ ++ ch :: y := by
  intro a
  induction a with
  | nil => intro x b y h _; exact ⟨b, rfl, h⟩
  | cons c a' ih =>
    intro x b y h hch
    match b with
    | [] =>
      simp only [List.nil_append, List.cons_append] at h
      injection h with h1 _
      exact absurd h1 (hch c (by simp))
    | c' :: b' =>
      simp only [List.cons_append] at h
      injection h with h1 h2
      subst h1
      obtain ⟨b₂, hb, hx⟩ := ih x b' y h2 (fun z hz => hch z (by simp [hz]))
      exact ⟨b₂, by rw [hb]; rfl, hx⟩


/-- Splitting a well-formed decomposition at an occurrence of a character
that cannot occur inside a token: both sides are well-formed and the
tokens distribute around the cut (the cut character belongs to neither
side). -/
theorem segs_split_at (ch : Char) (hch1 : ch ∉ ("[IMAGE_PLACEHOLDER_" : String).data)
    (hch2 : ch.isDigit = false) (hch3 : ch ≠ ']') :
    ∀ (n : ℕ) (segs : List Seg) (pre post : List Char),
      (segsToContent segs).length ≤ n →
      (∀ sg ∈ segs, SegWF sg) →
      segsToContent segs = pre ++ ch :: post →
      ∃ segsA segsB, (∀ sg ∈ segsA, SegWF sg) ∧ (∀ sg ∈ segsB, SegWF sg)
        ∧ segsToContent segsA = pre ∧ segsToContent segsB = post
        ∧ segTokens segs = segTokens segsA ++ segTokens segsB := by
  intro n
  induction n with
  | zero =>
    intro segs pre post hn hwf heq
    have h0 : segsToContent segs = [] := List.length_eq_zero.mp (Nat.le_zero.mp hn)
    rw [h0] at heq
    exact absurd heq.symm (by simp)
  | succ n ih =>
    intro segs pre post hn hwf heq
    rcases segs_head_cases segs hwf with ⟨h1, _⟩
      | ⟨d, s₂, hw, hd, hdig, hc, ht⟩ | ⟨c, s₂, hc0, hw, hc, ht⟩
    · rw [h1] at heq
      exact absurd heq.symm (by simp)
    · have hflat : (("[IMAGE_PLACEHOLDER_".data ++ (d ++ [']'])) ++ segsToContent s₂)
          = pre ++ ch :: post := by
        rw [← token_content_shape, ← hc]
        exact heq
      have htokne : ∀ c ∈ "[IMAGE_PLACEHOLDER_".data ++ (d ++ [']']), c ≠ ch :=
        token_flat_ne d hdig ch hch1 hch2 hch3
      obtain ⟨b₂, hbpre, hx⟩ :=
        append_split_at_char ch _ (segsToContent s₂) pre post hflat htokne
      have hlen2 : (segsToContent s₂).length ≤ n := by
        have hl : (segsToContent segs).length
            = 19 + (d.length + (1 + (segsToContent s₂).length)) := by
          rw [hc]
          simp [List.length_append]
          omega
        omega
      obtain ⟨A, B, hwA, hwB, hcA, hcB, htAB⟩ := ih s₂ b₂ post hlen2 hw hx
      refine ⟨.tok d :: A, B, ?_, hwB, ?_, hcB, ?_⟩
      · intro x hx'
        rcases List.mem_cons.mp hx' with hx' | hx'
        · rw [hx']
          exact ⟨hd, hdig⟩
        · exact hwA x hx'
      · rw [show segsToContent (.tok d :: A)
            = "[IMAGE_PLACEHOLDER_".data ++ (d ++ ']' :: segsToContent A) from rfl]
        rw [hcA, token_content_shape, ← hbpre]
      · rw [ht, htAB]
        rfl
    · match pre with
      | [] =>
        rw [hc] at heq
        have h2 : segsToContent s₂ = post := by
          have := congrArg List.tail heq
          simpa using this
        refine ⟨[], s₂, ?_, hw, rfl, h2, ?_⟩
        · intro x hx
          cases hx
        · rw [ht]
          rfl
      | p :: pre' =>
        rw [hc] at heq
        have h1 : c = p := by
          have := congrArg List.head? heq
          simpa using this
        have h2 : segsToContent s₂ = pre' ++ ch :: post := by
          have := congrArg List.tail heq
          simpa using this
        subst h1
        have hlen2 : (segsToContent s₂).length ≤ n := by
          have hl : (segsToContent segs).length = (segsToContent s₂).length + 1 := by
            rw [hc]
            simp
          omega
        obtain ⟨A, B, hwA, hwB, hcA, hcB, htAB⟩ := ih s₂ pre' post hlen2 hw h2
        refine ⟨.text [c] :: A, B, ?_, hwB, ?_, hcB, ?_⟩
        · intro x hx'
          rcases List.mem_cons.mp hx' with hx' | hx'
          · rw [hx']
            intro y hy
            have hy' : y = c := List.mem_singleton.mp hy
            rw [hy']
            exact hc0
          · exact hwA x hx'
        · rw [show segsToContent (.text [c] :: A) = [c] ++ segsToContent A from rfl, hcA]
          rfl
        · rw [ht, htAB]
          rfl

/-- Dropping a leading newline run from a well-formed decomposition's
content yields the content of another well-formed decomposition with the
same tokens. -/
theorem segs_dropRun :
    ∀ (n : ℕ) (segs : List Seg), (segsToContent segs).length ≤ n →
      (∀ sg ∈ segs, SegWF sg) →
      ∃ segs', (∀ sg ∈ segs', SegWF sg) ∧ segTokens segs' = segTokens segs
        ∧ segsToContent segs' = (segsToContent segs).dropWhile (· = '\n') := by
  intro n
  induction n with
  | zero =>
    intro segs hn hwf
    have h0 : segsToContent segs = [] := List.length_eq_zero.mp (Nat.le_zero.mp hn)
    exact ⟨segs, hwf, rfl, by rw [h0]; rfl⟩
  | succ n ih =>
    intro segs hn hwf
    rcases segs_head_cases segs hwf with ⟨h1, _⟩
      | ⟨d, s₂, hw, hd, hdig, hc, ht⟩ | ⟨c, s₂, hc0, hw, hc, ht⟩
    · exact ⟨segs, hwf, rfl, by rw [h1]; rfl⟩
    · refine ⟨segs, hwf, rfl, ?_⟩
      rw [hc]
      rw [show "[IMAGE_PLACEHOLDER_".data ++ (d ++ ']' :: segsToContent s₂)
          = '[' :: ("IMAGE_PLACEHOLDER_".data ++ (d ++ ']' :: segsToContent s₂))
          from rfl]
      rw [List.dropWhile_cons_of_neg (by decide)]
    · by_cases hcn : c = '\n'
      · subst hcn
        have hlen2 : (segsToContent s₂).length ≤ n := by
          have hl : (segsToContent segs).length = (segsToContent s₂).length + 1 := by
            rw [hc]
            simp
          omega
        obtain ⟨s', hw', ht', hc'⟩ := ih s₂ hlen2 hw
        refine ⟨s', hw', by rw [ht', ht], ?_⟩
        rw [hc, List.dropWhile_cons_of_pos (by decide), hc']
      · refine ⟨segs, hwf, rfl, ?_⟩
        rw [hc, List.dropWhile_cons_of_neg (by simp [hcn])]


/-- The single-newline pass maps well-formed content to well-formed
content with the same tokens. -/
theorem nlSingle_preserves :
    ∀ (n : ℕ) (segs : List Seg), (segsToContent segs).length ≤ n →
      (∀ sg ∈ segs, SegWF sg) →
      ∃ segs', (∀ sg ∈ segs', SegWF sg) ∧ segTokens segs' = segTokens segs
        ∧ nlSingleReplace (segsToContent segs) = segsToContent segs' := by
  intro n
  induction n with
  | zero =>
    intro segs hn hwf
    have h0 : segsToContent segs = [] := List.length_eq_zero.mp (Nat.le_zero.mp hn)
    rcases segs_head_cases segs hwf with ⟨h1, h2⟩
      | ⟨d, s₂, _, _, _, hc, _⟩ | ⟨c, s₂, _, _, hc, _⟩
    · refine ⟨[], ?_, ?_, ?_⟩
      · intro x hx
        cases hx
      · rw [h2]
        rfl
      · rw [h1]
        rfl
    · rw [h0] at hc
      have := congrArg List.length hc
      simp at this
    · rw [h0] at hc
      exact absurd hc (by simp)
  | succ n ih =>
    intro segs hn hwf
    rcases segs_head_cases segs hwf with ⟨h1, h2⟩
      | ⟨d, s₂, hw, hd, hdig, hc, ht⟩ | ⟨c, s₂, hc0, hw, hc, ht⟩
    · refine ⟨[], ?_, ?_, ?_⟩
      · intro x hx
        cases hx
      · rw [h2]
        rfl
      · rw [h1]
        rfl
    · have htokne : ∀ c ∈ "[IMAGE_PLACEHOLDER_".data ++ (d ++ [']']), c ≠ '\n' :=
        token_flat_ne d hdig '\n' (by decide) (by decide) (by decide)
      have hlen2 : (segsToContent s₂).length ≤ n := by
        have hl : (segsToContent segs).length
            = 19 + (d.length + (1 + (segsToContent s₂).length)) := by
          rw [hc]
          simp [List.length_append]
          omega
        omega
      obtain ⟨s', hw', ht', hc'⟩ := ih s₂ hlen2 hw
      refine ⟨.tok d :: s', ?_, ?_, ?_⟩
      · intro x hx
        rcases List.mem_cons.mp hx with hx | hx
        · rw [hx]
          exact ⟨hd, hdig⟩
        · exact hw' x hx
      · rw [show segTokens (.tok d :: s') = d :: segTokens s' from rfl, ht', ht]
      · rw [hc, token_content_shape, nlSingleReplace_append,
          nlSingleReplace_id _ htokne, hc']
        rw [show segsToContent (.tok d :: s')
            = ("[IMAGE_PLACEHOLDER_".data ++ (d ++ [']'])) ++ segsToContent s'
          from token_content_shape d (segsToContent s')]
    · have hlen2 : (segsToContent s₂).length ≤ n := by
        have hl : (segsToContent segs).length = (segsToContent s₂).length + 1 := by
          rw [hc]
          simp
        omega
      obtain ⟨s', hw', ht', hc'⟩ := ih s₂ hlen2 hw
      have hstep : nlSingleReplace (segsToContent segs)
          = (if c = '\n' then "<br />".data else [c])
              ++ nlSingleReplace (segsToContent s₂) := by
        rw [hc]
        rfl
      by_cases hcn : c = '\n'
      · refine ⟨.text "<br />".data :: s', ?_, ?_, ?_⟩
        · intro x hx
          rcases List.mem_cons.mp hx with hx | hx
          · rw [hx]
            intro y hy
            revert hy
            exact (by decide : ∀ y ∈ ("<br />" : String).data, y ≠ '[') y
          · exact hw' x hx
        · rw [show segTokens (.text "<br />".data :: s') = segTokens s' from rfl, ht', ht]
        · rw [hstep, if_pos hcn, hc']
          rfl
      · refine ⟨.text [c] :: s', ?_, ?_, ?_⟩
        · intro x hx
          rcases List.mem_cons.mp hx with hx | hx
          · rw [hx]
            intro y hy
            have hy' : y = c := List.mem_singleton.mp hy
            rw [hy']
            exact hc0
          · exact hw' x hx
        · rw [show segTokens (.text [c] :: s') = segTokens s' from rfl, ht', ht]
        · rw [hstep, if_neg hcn, hc']
          rfl


theorem cons_eq_parts {c c' : Char} {cs cs' : List Char}
    (h : c :: cs = c' :: cs') : c = c' ∧ cs = cs' := by
  injection h with h1 h2
  exact ⟨h1, h2⟩

/-- A token's content never begins with a non-bracket character. -/
theorem token_head_ne {d rc : List Char} {ch : Char} {tl : List Char}
    (h : "[IMAGE_PLACEHOLDER_".data ++ (d ++ ']' :: rc) = ch :: tl)
    (hch : ch ≠ '[') : False := by
  rw [show ("[IMAGE_PLACEHOLDER_" : String).data
      = '[' :: ("IMAGE_PLACEHOLDER_" : String).data from rfl] at h
  simp only [List.cons_append] at h
  injection h with h1 _
  exact hch h1.symm

/-- The newline-run pass maps well-formed content to well-formed content
with the same tokens. -/
theorem nlRuns_preserves :
    ∀ (n : ℕ) (segs : List Seg), (segsToContent segs).length ≤ n →
      (∀ sg ∈ segs, SegWF sg) →
      ∃ segs', (∀ sg ∈ segs', SegWF sg) ∧ segTokens segs' = segTokens segs
        ∧ nlRunsReplace (segsToContent segs) = segsToContent segs' := by
  intro n
  induction n with
  | zero =>
    intro segs hn hwf
    have h0 : segsToContent segs = [] := List.length_eq_zero.mp (Nat.le_zero.mp hn)
    rcases segs_head_cases segs hwf with ⟨h1, h2⟩
      | ⟨d, s₂, _, _, _, hc, _⟩ | ⟨c, s₂, _, _, hc, _⟩
    · refine ⟨[], ?_, ?_, ?_⟩
      · intro x hx
        cases hx
      · rw [h2]
        rfl
      · rw [h1]
        rfl
    · rw [h0] at hc
      have := congrArg List.length hc
      simp at this
    · rw [h0] at hc
      exact absurd hc (by simp)
  | succ n ih =>
    intro segs hn hwf
    rcases segs_head_cases segs hwf with ⟨h1, h2⟩
      | ⟨d, s₂, hw, hd, hdig, hc, ht⟩ | ⟨c, s₂, hc0, hw, hc, ht⟩
    · refine ⟨[], ?_, ?_, ?_⟩
      · intro x hx
        cases hx
      · rw [h2]
        rfl
      · rw [h1]
        rfl
    · have htokne : ∀ c ∈ "[IMAGE_PLACEHOLDER_".data ++ (d ++ [']']), c ≠ '\n' :=
        token_flat_ne d hdig '\n' (by decide) (by decide) (by decide)
      have hlen2 : (segsToContent s₂).length ≤ n := by
        have hl : (segsToContent segs).length
            = 19 + (d.length + (1 + (segsToContent s₂).length)) := by
          rw [hc]
          simp [List.length_append]
          omega
        omega
      obtain ⟨s', hw', ht', hc'⟩ := ih s₂ hlen2 hw
      refine ⟨.tok d :: s', ?_, ?_, ?_⟩
      · intro x hx
        rcases List.mem_cons.mp hx with hx | hx
        · rw [hx]
          exact ⟨hd, hdig⟩
        · exact hw' x hx
      · rw [show segTokens (.tok d :: s') = d :: segTokens s' from rfl, ht', ht]
      · rw [hc, token_content_shape, nlRunsReplace_clean_lead _ _ htokne, hc']
        rw [show segsToContent (.tok d :: s')
            = ("[IMAGE_PLACEHOLDER_".data ++ (d ++ [']'])) ++ segsToContent s'
          from token_content_shape d (segsToContent s')]
    · match hm : nlRunMatchAt (c :: segsToContent s₂) with
      | none =>
        have hlen2 : (segsToContent s₂).length ≤ n := by
          have hl : (segsToContent segs).length = (segsToContent s₂).length + 1 := by
            rw [hc]
            simp
          omega
        obtain ⟨s', hw', ht', hc'⟩ := ih s₂ hlen2 hw
        refine ⟨.text [c] :: s', ?_, ?_, ?_⟩
        · intro x hx
          rcases List.mem_cons.mp hx with hx | hx
          · rw [hx]
            intro y hy
            have hy' : y = c := List.mem_singleton.mp hy
            rw [hy']
            exact hc0
          · exact hw' x hx
        · rw [show segTokens (.text [c] :: s') = segTokens s' from rfl, ht', ht]
        · rw [hc, nlRunsReplace_cons_none hm, hc']
          rfl
      | some r =>
        obtain ⟨cs', hshape, hrd⟩ := nlRunMatchAt_eq _ r hm
        obtain ⟨hcc, h2⟩ := cons_eq_parts hshape
        rcases segs_head_cases s₂ hw with ⟨e1, _⟩
          | ⟨d₂, s₃, hw₃, _, _, hc₂, _⟩ | ⟨c₂, s₃, _, hw₃, hc₂, ht₂⟩
        · rw [e1] at h2
          exact absurd h2.symm (by simp)
        · rw [hc₂] at h2
          exact absurd (token_head_ne h2 (by decide)) (fun f => f)
        · rw [hc₂] at h2
          obtain ⟨hc2n, h3⟩ := cons_eq_parts h2
          obtain ⟨sD, hwD, htD, hcD⟩ :=
            segs_dropRun (segsToContent s₃).length s₃ (le_refl _) hw₃
          have hcDr : segsToContent sD = r := by
            rw [hcD, h3, hrd]
          have hlenD : (segsToContent sD).length ≤ n := by
            have hr : r.length ≤ cs'.length := hrd ▸ length_dropWhile_le2 _ cs'
            have hl : (segsToContent segs).length = cs'.length + 2 := by
              rw [hc, hc₂, h3]
              simp
            rw [hcDr]
            omega
          obtain ⟨s', hw', ht', hc'⟩ := ih sD hlenD hwD
          refine ⟨.text "<br /><br />".data :: s', ?_, ?_, ?_⟩
          · intro x hx
            rcases List.mem_cons.mp hx with hx | hx
            · rw [hx]
              intro y hy
              revert hy
              exact (by decide : ∀ y ∈ ("<br /><br />" : String).data, y ≠ '[') y
            · exact hw' x hx
          · rw [show segTokens (.text "<br /><br />".data :: s') = segTokens s'
              from rfl, ht', htD, ← ht₂, ← ht]
          · rw [hc, nlRunsReplace_cons_some hm, ← hcDr, hc']
            rfl


/-- The bold pass maps well-formed content to well-formed content with
the same tokens: a match's opening and closing `**` always lie outside
tokens (tokens contain no asterisk), so the emitted `<strong>` tags land
in text stretches and every token survives intact. -/
theorem bold_preserves :
    ∀ (n : ℕ) (segs : List Seg), (segsToContent segs).length ≤ n →
      (∀ sg ∈ segs, SegWF sg) →
      ∃ segs', (∀ sg ∈ segs', SegWF sg) ∧ segTokens segs' = segTokens segs
        ∧ boldReplace (segsToContent segs) = segsToContent segs' := by
  intro n
  induction n with
  | zero =>
    intro segs hn hwf
    have h0 : segsToContent segs = [] := List.length_eq_zero.mp (Nat.le_zero.mp hn)
    rcases segs_head_cases segs hwf with ⟨h1, h2⟩
      | ⟨d, s₂, _, _, _, hc, _⟩ | ⟨c, s₂, _, _, hc, _⟩
    · refine ⟨[], ?_, ?_, ?_⟩
      · intro x hx
        cases hx
      · rw [h2]
        rfl
      · rw [h1]
        rfl
    · rw [h0] at hc
      have := congrArg List.length hc
      simp at this
    · rw [h0] at hc
      exact absurd hc (by simp)
  | succ n ih =>
    intro segs hn hwf
    rcases segs_head_cases segs hwf with ⟨h1, h2⟩
      | ⟨d, s₂, hw, hd, hdig, hc, ht⟩ | ⟨c, s₂, hc0, hw, hc, ht⟩
    · refine ⟨[], ?_, ?_, ?_⟩
      · intro x hx
        cases hx
      · rw [h2]
        rfl
      · rw [h1]
        rfl
    · have htokne : ∀ c ∈ "[IMAGE_PLACEHOLDER_".data ++ (d ++ [']']), c ≠ '*' :=
        token_flat_ne d hdig '*' (by decide) (by decide) (by decide)
      have hlen2 : (segsToContent s₂).length ≤ n := by
        have hl : (segsToContent segs).length
            = 19 + (d.length + (1 + (segsToContent s₂).length)) := by
          rw [hc]
          simp [List.length_append]
          omega
        omega
      obtain ⟨s', hw', ht', hc'⟩ := ih s₂ hlen2 hw
      refine ⟨.tok d :: s', ?_, ?_, ?_⟩
      · intro x hx
        rcases List.mem_cons.mp hx with hx | hx
        · rw [hx]
          exact ⟨hd, hdig⟩
        · exact hw' x hx
      · rw [show segTokens (.tok d :: s') = d :: segTokens s' from rfl, ht', ht]
      · rw [hc, token_content_shape, boldReplace_clean_lead _ _ htokne, hc']
        rw [show segsToContent (.tok d :: s')
            = ("[IMAGE_PLACEHOLDER_".data ++ (d ++ [']'])) ++ segsToContent s'
          from token_content_shape d (segsToContent s')]
    · match hm : boldMatchAt (c :: segsToContent s₂) with
      | none =>
        have hlen2 : (segsToContent s₂).length ≤ n := by
          have hl : (segsToContent segs).length = (segsToContent s₂).length + 1 := by
            rw [hc]
            simp
          omega
        obtain ⟨s', hw', ht', hc'⟩ := ih s₂ hlen2 hw
        refine ⟨.text [c] :: s', ?_, ?_, ?_⟩
        · intro x hx
          rcases List.mem_cons.mp hx with hx | hx
          · rw [hx]
            intro y hy
            have hy' : y = c := List.mem_singleton.mp hy
            rw [hy']
            exact hc0
          · exact hw' x hx
        · rw [show segTokens (.text [c] :: s') = segTokens s' from rfl, ht', ht]
        · rw [hc, boldReplace_cons_none hm, hc']
          rfl
      | some (i, r) =>
        obtain ⟨hshape, _⟩ := boldMatchAt_eq _ i r hm
        obtain ⟨hcs, h2⟩ := cons_eq_parts hshape
        rcases segs_head_cases s₂ hw with ⟨e1, _⟩
          | ⟨d₂, s₃, _, _, _, hc₂, _⟩ | ⟨c₂, s₃, _, hw₃, hc₂, ht₂⟩
        · rw [e1] at h2
          exact absurd h2.symm (by simp)
        · rw [hc₂] at h2
          exact absurd (token_head_ne h2 (by decide)) (fun f => f)
        · rw [hc₂] at h2
          obtain ⟨hc2s, h3⟩ := cons_eq_parts h2
          obtain ⟨A, B, hwA, hwB, hcA, hcB, htAB⟩ :=
            segs_split_at '*' (by decide) (by decide) (by decide)
              (segsToContent s₃).length s₃ i ('*' :: r) (le_refl _) hw₃ h3
          rcases segs_head_cases B hwB with ⟨e2, _⟩
            | ⟨d₃, s₄x, _, _, _, hcB₂, _⟩ | ⟨c₃, s₄, _, hw₄, hcB₂, htB₂⟩
          · rw [e2] at hcB
            exact absurd hcB.symm (by simp)
          · rw [hcB₂] at hcB
            exact absurd (token_head_ne hcB (by decide)) (fun f => f)
          · rw [hcB₂] at hcB
            obtain ⟨hc3s, h4⟩ := cons_eq_parts hcB
            have hlen4 : (segsToContent s₄).length ≤ n := by
              have hl : (segsToContent segs).length
                  = i.length + r.length + 4 := by
                rw [hc, hshape]
                simp [List.length_append]
                omega
              have h4l := congrArg List.length h4
              omega
            obtain ⟨s₅, hw₅, ht₅, hc₅⟩ := ih s₄ hlen4 hw₄
            refine ⟨.text "<strong>".data :: (A ++ (.text "</strong>".data :: s₅)),
              ?_, ?_, ?_⟩
            · intro x hx
              rcases List.mem_cons.mp hx with hx | hx
              · rw [hx]
                intro y hy
                revert hy
                exact (by decide : ∀ y ∈ ("<strong>" : String).data, y ≠ '[') y
              · rcases List.mem_append.mp hx with hx | hx
                · exact hwA x hx
                · rcases List.mem_cons.mp hx with hx | hx
                  · rw [hx]
                    intro y hy
                    revert hy
                    exact (by decide : ∀ y ∈ ("</strong>" : String).data, y ≠ '[') y
                  · exact hw₅ x hx
            · rw [show segTokens (.text "<strong>".data
                  :: (A ++ (.text "</strong>".data :: s₅)))
                  = segTokens (A ++ (.text "</strong>".data :: s₅)) from rfl]
              rw [segTokens_append]
              rw [show segTokens (.text "</strong>".data :: s₅) = segTokens s₅ from rfl]
              rw [ht₅, ← htB₂, ← htAB, ← ht₂, ← ht]
            · rw [hc, boldReplace_cons_some hm, ← h4, hc₅]
              rw [show segsToContent (.text "<strong>".data
                  :: (A ++ (.text "</strong>".data :: s₅)))
                  = "<strong>".data ++ segsToContent (A ++ (.text "</strong>".data :: s₅))
                from rfl]
              rw [segsToContent_append]
              rw [show segsToContent (.text "</strong>".data :: s₅)
                  = "</strong>".data ++ segsToContent s₅ from rfl]
              rw [hcA]
              simp [List.append_assoc]


/-- C5 amended: for content decomposing into placeholder tokens separated
by stretches of bracket-free text (so no token is nested in or spliced
around another), and image references, title and keyword free of
brackets, the rendered content contains zero occurrences of the token
grammar.  The bold and newline passes carry the decomposition — with the
same tokens — through to the placeholder pass, which resolves every token
through the figure callback when `imageUrls` is present and non-empty
(in-range tokens become figures, out-of-range tokens become nothing) and
strips every token when `imageUrls` is absent. -/
theorem render_resolves_placeholders :
    ∀ (segs : List Seg) (bp : BlogPostOut) (formKeyword : String),
      (∀ sg ∈ segs, SegWF sg) →
      bp.content.data = segsToContent segs →
      (∀ l, bp.imageUrls = some l → ∀ u ∈ l, ∀ c ∈ u.data, c ≠ '[') →
      (∀ c ∈ bp.title.data, c ≠ '[') →
      (∀ c ∈ formKeyword.data, c ≠ '[') →
      containsToken (renderBlogContent bp formKeyword).data = false
      ∧ (∀ u us, bp.imageUrls = some (u :: us) →
          ∃ segs', (∀ sg ∈ segs', SegWF sg) ∧ segTokens segs' = segTokens segs
            ∧ (renderBlogContent bp formKeyword).data
                = renderedSegs (figCallback (u :: us) bp.title formKeyword) segs')
      ∧ (bp.imageUrls = none →
          ∃ segs', (∀ sg ∈ segs', SegWF sg) ∧ segTokens segs' = segTokens segs
            ∧ (renderBlogContent bp formKeyword).data
                = renderedSegs (fun _ => []) segs') := by
  intro segs bp kw hwf hcontent hurls htitle hkw
  obtain ⟨sB, hwB, htB, hcB⟩ :=
    bold_preserves (segsToContent segs).length segs (le_refl _) hwf
  obtain ⟨sR, hwR, htR, hcR⟩ :=
    nlRuns_preserves (segsToContent sB).length sB (le_refl _) hwB
  obtain ⟨sS, hwS, htS, hcS⟩ :=
    nlSingle_preserves (segsToContent sR).length sR (le_refl _) hwR
  have key : ∀ repl : List Char → List Char,
      phReplace repl (nlSingleReplace (nlRunsReplace (boldReplace bp.content.data)))
        = renderedSegs repl sS := by
    intro repl
    rw [hcontent, hcB, hcR, hcS]
    unfold phReplace
    exact phReplaceF_segs repl sS _ hwS (le_refl _)
  have htoks : segTokens sS = segTokens segs := by
    rw [htS, htR, htB]
  obtain ⟨btitle, bcontent, bimg, bthumb⟩ := bp
  match bimg with
  | some (u :: us) =>
    have hdata : (renderBlogContent ⟨btitle, bcontent, some (u :: us), bthumb⟩ kw).data
        = renderedSegs (figCallback (u :: us) btitle kw) sS := key _
    refine ⟨?_, ?_, ?_⟩
    · rw [hdata]
      apply containsToken_eq_false
      apply renderedSegs_no_bracket _ _ hwS
      intro d
      exact figCallback_no_bracket (u :: us) btitle kw d (hurls _ rfl) htitle hkw
    · intro u' us' he
      have huu : u' = u ∧ us' = us := by
        have he' := he
        simp only [Option.some.injEq, List.cons.injEq] at he'
        exact ⟨he'.1.symm, he'.2.symm⟩
      rw [huu.1, huu.2] at *
      exact ⟨sS, hwS, htoks, hdata⟩
    · intro he
      cases he
  | some [] =>
    have hdata : (renderBlogContent ⟨btitle, bcontent, some [], bthumb⟩ kw).data
        = renderedSegs (fun _ => []) sS := key _
    refine ⟨?_, ?_, ?_⟩
    · rw [hdata]
      apply containsToken_eq_false
      apply renderedSegs_no_bracket _ _ hwS
      intro d c hc
      cases hc
    · intro u' us' he
      simp at he
    · intro he
      cases he
  | none =>
    have hdata : (renderBlogContent ⟨btitle, bcontent, none, bthumb⟩ kw).data
        = renderedSegs (fun _ => []) sS := key _
    refine ⟨?_, ?_, ?_⟩
    · rw [hdata]
      apply containsToken_eq_false
      apply renderedSegs_no_bracket _ _ hwS
      intro d c hc
      cases hc
    · intro u' us' he
      cases he
    · intro _
      exact ⟨sS, hwS, htoks, hdata⟩

/-- Witness for C5's amended theorem at a concrete input: a content made of
a text stretch with a bold span and newlines plus one token, rendered with
no images, contains no token. -/
theorem render_resolves_placeholders_witness :
    containsToken (renderBlogContent
      ⟨"T", "**Intro**\n\n[IMAGE_PLACEHOLDER_1]", none, none⟩ "kw").data = false :=
  (render_resolves_placeholders
    [.text "**Intro**\n\n".data, .tok ['1']]
    ⟨"T", "**Intro**\n\n[IMAGE_PLACEHOLDER_1]", none, none⟩ "kw"
    (by
      intro sg hsg
      rcases List.mem_cons.mp hsg with h | h
      · rw [h]
        simp only [SegWF]
        decide
      · rcases List.mem_cons.mp h with h | h
        · rw [h]
          simp only [SegWF]
          decide
        · cases h)
    (by decide)
    (by intro l hl; cases hl)
    (by decide)
    (by decide)).1

/-! ## PDF page chunking (`content-generator.tsx`, `handleExportPdf`)

The export rasterizes the rendered block into a source canvas of height
`canvasHeight` (device pixels), computes `ratio = canvasWidth / pdfWidth`
and walks the canvas from top to bottom, cutting a chunk of height
`min(canvasHeight - positionOnCanvas, pdfHeight * ratio)` per iteration;
the first iteration draws into the existing document and every later one
calls `addPage` first (`pageCount > 1`).  Heights are modelled in `ℚ`.
The loop guard carries the capacity-positivity precondition under which
the JavaScript loop terminates. -/

/-- `ratio = canvasWidth / pdfWidth`. -/
def pdfRatio (canvasWidth pdfWidth : ℚ) : ℚ := canvasWidth / pdfWidth

/-- Per-page source capacity `pdfHeight * ratio` in source pixels. -/
def pageCapacity (canvasWidth pdfWidth pdfHeight : ℚ) : ℚ :=
  pdfHeight * pdfRatio canvasWidth pdfWidth

/-- The `while (positionOnCanvas < canvasHeight)` loop: each iteration
increments `pageCount`, records whether it starts a new page
(`pageCount > 1` after the increment) and the consumed chunk height, and
advances the offset by that height. -/
def exportLoop (H C pos : ℚ) (pageCount : ℕ) : List (Bool × ℚ) :=
  if h : 0 < C ∧ pos < H then
    (decide (pageCount + 1 > 1), min (H - pos) C)
      :: exportLoop H C (pos + min (H - pos) C) (pageCount + 1)
  else []
termination_by ⌈(H - pos) / C⌉₊
decreasing_by
  have hC : 0 < C := h.1
  have hR : 0 < H - pos := by linarith [h.2]
  by_cases hle : H - pos ≤ C
  · have hmin : min (H - pos) C = H - pos := min_eq_left hle
    rw [hmin]
    have : H - (pos + (H - pos)) = 0 := by ring
    rw [this]
    simp only [zero_div, Nat.ceil_zero]
    exact Nat.ceil_pos.mpr (div_pos hR hC)
  · have hmin : min (H - pos) C = C := min_eq_right (le_of_not_le hle)
    rw [hmin]
    have heq : H - (pos + C) = (H - pos) - C := by ring
    rw [heq]
    have hnn : 0 ≤ (H - pos - C) / C := div_nonneg (by linarith) (le_of_lt hC)
    have hsum : (H - pos - C) / C + 1 = (H - pos) / C := by
      field_simp
    rw [Nat.lt_iff_add_one_le, ← Nat.ceil_add_one hnn, hsum]

/-- The pages emitted by `handleExportPdf` for a source canvas. -/
def handleExportPdfPages (canvasWidth canvasHeight pdfWidth pdfHeight : ℚ) :
    List (Bool × ℚ) :=
  exportLoop canvasHeight (pageCapacity canvasWidth pdfWidth pdfHeight) 0 0

theorem exportLoop_length (H C : ℚ) (hC : 0 < C) :
    ∀ (pos : ℚ) (pc : ℕ), (exportLoop H C pos pc).length = ⌈(H - pos) / C⌉₊ := by
  intro pos pc
  induction pos, pc using exportLoop.induct H C with
  | case1 pos pc h ih =>
    rw [exportLoop, dif_pos h]
    simp only [List.length_cons, ih]
    by_cases hle : H - pos ≤ C
    · rw [min_eq_left hle]
      have h0 : H - (pos + (H - pos)) = 0 := by ring
      rw [h0]
      simp only [zero_div, Nat.ceil_zero, zero_add]
      have hq : 0 < (H - pos) / C := div_pos (by linarith [h.2]) hC
      have hq2 : (H - pos) / C ≤ 1 := (div_le_one hC).mpr hle
      have hub : ⌈(H - pos) / C⌉₊ ≤ 1 := by
        rw [Nat.ceil_le]
        exact_mod_cast hq2
      have hlb : 1 ≤ ⌈(H - pos) / C⌉₊ := Nat.ceil_pos.mpr hq
      omega
    · rw [min_eq_right (le_of_not_le hle)]
      have heq : H - (pos + C) = H - pos - C := by ring
      rw [heq]
      have hnn : 0 ≤ (H - pos - C) / C := div_nonneg (by linarith) hC.le
      have hsum : (H - pos - C) / C + 1 = (H - pos) / C := by field_simp
      rw [← Nat.ceil_add_one hnn, hsum]
  | case2 pos pc h =>
    rw [exportLoop, dif_neg h]
    have hpos : ¬ pos < H := fun hp => h ⟨hC, hp⟩
    have hle : (H - pos) / C ≤ 0 :=
      div_nonpos_of_nonpos_of_nonneg (by linarith) hC.le
    simp only [List.length_nil]
    exact (Nat.ceil_eq_zero.mpr hle).symm

theorem exportLoop_sum (H C : ℚ) (hC : 0 < C) :
    ∀ (pos : ℚ) (pc : ℕ),
      ((exportLoop H C pos pc).map Prod.snd).sum = max (H - pos) 0 := by
  intro pos pc
  induction pos, pc using exportLoop.induct H C with
  | case1 pos pc h ih =>
    rw [exportLoop, dif_pos h]
    simp only [List.map_cons, List.sum_cons, ih]
    by_cases hle : H - pos ≤ C
    · rw [min_eq_left hle]
      have h0 : H - (pos + (H - pos)) = 0 := by ring
      rw [h0]
      rw [max_eq_left (le_refl (0 : ℚ)), max_eq_left (by linarith [h.2])]
      ring
    · rw [min_eq_right (le_of_not_le hle)]
      have heq : H - (pos + C) = H - pos - C := by ring
      rw [heq]
      rw [max_eq_left (by linarith : (0:ℚ) ≤ H - pos - C),
        max_eq_left (by linarith [h.2] : (0:ℚ) ≤ H - pos)]
      ring
  | case2 pos pc h =>
    rw [exportLoop, dif_neg h]
    have hpos : ¬ pos < H := fun hp => h ⟨hC, hp⟩
    simp only [List.map_nil, List.sum_nil]
    rw [max_eq_right (by linarith : H - pos ≤ (0:ℚ))]

theorem exportLoop_chunk_bounds (H C : ℚ) :
    ∀ (pos : ℚ) (pc : ℕ),
      ∀ e ∈ exportLoop H C pos pc, 0 < e.2 ∧ e.2 ≤ C := by
  intro pos pc
  induction pos, pc using exportLoop.induct H C with
  | case1 pos pc h ih =>
    rw [exportLoop, dif_pos h]
    intro e he
    rcases List.mem_cons.mp he with he | he
    · rw [he]
      constructor
      · exact lt_min (by linarith [h.2]) h.1
      · exact min_le_right _ _
    · exact ih e he
  | case2 pos pc h =>
    rw [exportLoop, dif_neg h]
    intro e he
    cases he

theorem exportLoop_getq (H C : ℚ) :
    ∀ (pos : ℚ) (pc : ℕ), ∀ k : ℕ, k < (exportLoop H C pos pc).length →
      (exportLoop H C pos pc).get? k
        = some (decide (pc + k + 1 > 1),
            min (H - (pos + (((exportLoop H C pos pc).map Prod.snd).take k).sum)) C) := by
  intro pos pc
  induction pos, pc using exportLoop.induct H C with
  | case1 pos pc h ih =>
    intro k hk
    rw [exportLoop, dif_pos h] at hk ⊢
    match k with
    | 0 =>
      simp only [List.get?_cons_zero, List.map_cons, List.take_zero, List.sum_nil,
        add_zero, Nat.add_zero]
    | j + 1 =>
      simp only [List.get?_cons_succ, List.map_cons, List.take_succ_cons,
        List.sum_cons]
      have hk' : j < (exportLoop H C (pos + min (H - pos) C) (pc + 1)).length := by
        simpa using Nat.lt_of_succ_lt_succ hk
      rw [ih j hk']
      have hb : pc + 1 + j + 1 = pc + (j + 1) + 1 := by omega
      rw [hb, add_assoc pos (min (H - pos) C)]
  | case2 pos pc h =>
    intro k hk
    rw [exportLoop, dif_neg h] at hk
    cases hk

/-- C2: for a positive source height `H` and positive capacity
`C = pdfHeight * (canvasWidth / pdfWidth)`, the export emits exactly
`⌈H / C⌉₊` pages; the `k`-th iteration consumes a chunk of height
`min(H - offset, C)` where the offset is the sum of the preceding chunk
heights (so consecutive chunks tile the canvas top to bottom with no gap
and no overlap), every chunk height is positive, all heights sum to `H`
exactly, and the first chunk is drawn into the existing document while
exactly the subsequent chunks start a new page. -/
theorem pdf_pagination_exact :
    ∀ (canvasWidth canvasHeight pdfWidth pdfHeight : ℚ),
      0 < canvasHeight →
      0 < pageCapacity canvasWidth pdfWidth pdfHeight →
      (handleExportPdfPages canvasWidth canvasHeight pdfWidth pdfHeight).length
          = ⌈canvasHeight / pageCapacity canvasWidth pdfWidth pdfHeight⌉₊
      ∧ (((handleExportPdfPages canvasWidth canvasHeight pdfWidth pdfHeight).map
            Prod.snd).sum) = canvasHeight
      ∧ (∀ k : ℕ, k < (handleExportPdfPages canvasWidth canvasHeight pdfWidth
            pdfHeight).length →
          (handleExportPdfPages canvasWidth canvasHeight pdfWidth pdfHeight).get? k
            = some (decide (0 < k),
                min (canvasHeight - (((handleExportPdfPages canvasWidth canvasHeight
                    pdfWidth pdfHeight).map Prod.snd).take k).sum)
                  (pageCapacity canvasWidth pdfWidth pdfHeight)))
      ∧ (∀ e ∈ handleExportPdfPages canvasWidth canvasHeight pdfWidth pdfHeight,
          0 < e.2) := by
  intro w H pw ph hH hC
  refine ⟨?_, ?_, ?_, ?_⟩
  · unfold handleExportPdfPages
    rw [exportLoop_length H _ hC 0 0]
    rw [sub_zero]
  · unfold handleExportPdfPages
    rw [exportLoop_sum H _ hC 0 0, sub_zero, max_eq_left hH.le]
  · intro k hk
    unfold handleExportPdfPages at hk ⊢
    rw [exportLoop_getq H _ 0 0 k hk]
    have hb : (k + 1 > 1) ↔ (0 < k) := by omega
    simp only [zero_add, hb]
  · intro e he
    exact (exportLoop_chunk_bounds H _ 0 0 e he).1

/-- Witness for C2 at a concrete input: a 1000-pixel-high canvas at ratio 2
with page capacity 554 source pixels tiles into chunks summing to exactly
1000. -/
theorem pdf_pagination_exact_witness :
    ((handleExportPdfPages 380 1000 190 277).map Prod.snd).sum = 1000 :=
  (pdf_pagination_exact 380 1000 190 277 (by norm_num)
    (by norm_num [pageCapacity, pdfRatio])).2.1

/-- C10: under a strictly positive page capacity the chunking loop
terminates: every iteration advances the offset by a strictly positive
chunk height, and the loop performs exactly `⌈H / C⌉₊` iterations — a
finite number of emitted pages. -/
theorem pdf_export_terminates :
    ∀ (canvasWidth canvasHeight pdfWidth pdfHeight : ℚ),
      0 < pageCapacity canvasWidth pdfWidth pdfHeight →
      (handleExportPdfPages canvasWidth canvasHeight pdfWidth pdfHeight).length
          = ⌈canvasHeight / pageCapacity canvasWidth pdfWidth pdfHeight⌉₊
      ∧ ∀ e ∈ handleExportPdfPages canvasWidth canvasHeight pdfWidth pdfHeight,
          0 < e.2 := by
  intro w H pw ph hC
  constructor
  · unfold handleExportPdfPages
    rw [exportLoop_length H _ hC 0 0, sub_zero]
  · intro e he
    exact (exportLoop_chunk_bounds H _ 0 0 e he).1

/-- Witness for C10 at a concrete input: a 500-pixel-high canvas with
capacity 100 yields exactly `⌈500 / 100⌉₊` pages. -/
theorem pdf_export_terminates_witness :
    (handleExportPdfPages 200 500 100 50).length
      = ⌈(500 : ℚ) / pageCapacity 200 100 50⌉₊ :=
  (pdf_export_terminates 200 500 100 50 (by norm_num [pageCapacity, pdfRatio])).1

end BlogSmith
